import Mathlib

/-!
Verification development for the imake makefile evaluator (src/main.rs).

The Rust source is shallowly embedded: pure fragments become Lean
functions, the mutable `HashMap<String, Var>` variable store becomes an
association list threaded through results, `std::process::exit` becomes a
`fatal` result constructor, Rust panics (`unwrap`/`expect`/`todo!`/slice
range panics) become a `panicked` result constructor, and external
collaborators (process launching, the filesystem, globbing) become oracle
functions in a context record, exactly along the boundary the program
itself draws (it shells out for all of these).  Recursion through
variable values (which can diverge in the real program, e.g. `X = $(X)`)
is bounded by an explicit fuel parameter; running out of fuel is reported
by a dedicated constructor so that it can never be confused with a result
the program produces.

All definitions are computable and structurally recursive so that
concrete runs reduce with `decide` / `rfl`.
-/

namespace Imake

/-! ## String helpers (models of the Rust std string methods used) -/

/-- Rust `char::is_whitespace` restricted to the ASCII whitespace the
makefile evaluator actually meets (space, tab, newline, carriage return);
`Char.isWhitespace` matches this set. -/
def rsIsWs (c : Char) : Bool := c.isWhitespace

/-- Rust `str::trim` on a char list. -/
def trimL (l : List Char) : List Char :=
  ((l.dropWhile rsIsWs).reverse.dropWhile rsIsWs).reverse

/-- Rust `str::trim`. -/
def rustTrim (s : String) : String := (trimL s.data).asString

/-- Accumulating worker for `splitWhitespace`. -/
def splitWsAux : List Char → List Char → List String
  | [], buf => if buf.isEmpty then [] else [buf.asString]
  | c :: r, buf =>
    if rsIsWs c then
      if buf.isEmpty then splitWsAux r [] else buf.asString :: splitWsAux r []
    else splitWsAux r (buf ++ [c])

/-- Rust `str::split_whitespace` (also used for `split_ascii_whitespace`;
on the ASCII inputs involved the two agree). -/
def splitWhitespace (s : String) : List String := splitWsAux s.data []

/-- Accumulating worker for `splitOnChar`. -/
def splitChAux (sep : Char) : List Char → List Char → List String
  | [], buf => [buf.asString]
  | c :: r, buf =>
    if c = sep then buf.asString :: splitChAux sep r []
    else splitChAux sep r (buf ++ [c])

/-- Rust `str::split(sep)` for a char separator: keeps empty pieces. -/
def splitOnChar (sep : Char) (s : String) : List String := splitChAux sep s.data []

/-- Boolean list prefix test (Rust `str::starts_with` on char lists). -/
def isPreOf : List Char → List Char → Bool
  | [], _ => true
  | _ :: _, [] => false
  | a :: as_, b :: bs => a = b && isPreOf as_ bs

/-- Rust `str::starts_with`. -/
def startsWithStr (s pat : String) : Bool := isPreOf pat.data s.data

/-- Rust `str::ends_with`. -/
def endsWithStr (s pat : String) : Bool := isPreOf pat.data.reverse s.data.reverse

/-- Worker for `splitOnceStr`: scan for the first occurrence of `pat`. -/
def splitOnceAux (pat : List Char) : List Char → List Char → Option (String × String)
  | [], _ => none
  | c :: r, acc =>
    if isPreOf pat (c :: r) then some (acc.asString, ((c :: r).drop pat.length).asString)
    else splitOnceAux pat r (acc ++ [c])

/-- Rust `str::split_once(pat)`: split at the first occurrence of `pat`.
Like the Rust method, an empty pattern matches at the start. -/
def splitOnceStr (pat s : String) : Option (String × String) :=
  if pat.data.isEmpty then some ("", s)
  else splitOnceAux pat.data s.data []

/-- Rust `str::contains(pat)`. -/
def containsStr (s pat : String) : Bool := (splitOnceStr pat s).isSome

/-- Fuelled worker for `listReplace`: Rust `str::replace` with a
nonempty pattern replaces each non-overlapping occurrence left to
right.  Each step consumes at least one char, so fuel equal to the
input length makes the fuel irrelevant; it only keeps the recursion
structural. -/
def listReplaceAux (pat rep : List Char) : Nat → List Char → List Char
  | 0, l => l
  | f + 1, l =>
    match l with
    | [] => []
    | c :: rest =>
      if isPreOf pat (c :: rest) then
        rep ++ listReplaceAux pat rep f ((c :: rest).drop pat.length)
      else
        c :: listReplaceAux pat rep f rest

/-- Rust `str::replace` with a nonempty pattern. -/
def listReplace (pat rep l : List Char) : List Char :=
  listReplaceAux pat rep l.length l

/-- Rust `str::replace` with an empty pattern: the empty pattern matches
at every char boundary, so `rep` is inserted at every boundary. -/
def listReplaceEmpty (rep : List Char) : List Char → List Char
  | [] => rep
  | c :: rest => rep ++ c :: listReplaceEmpty rep rest

/-- Rust `str::replace(pat, rep)`. -/
def rustReplace (s pat rep : String) : String :=
  if pat.data.isEmpty then (listReplaceEmpty rep.data s.data).asString
  else (listReplace pat.data rep.data s.data).asString

/-- Rust `usize::from_str`: optional leading `+`, one or more ASCII
digits, value below `2 ^ 64` (usize is 64-bit on the supported targets). -/
def parseUsize (s : String) : Option Nat :=
  let l := match s.data with
    | '+' :: r => r
    | l => l
  if l.isEmpty then none
  else if l.all Char.isDigit then
    let n := l.foldl (fun acc c => acc * 10 + (c.toNat - 48)) 0
    if n < 2 ^ 64 then some n else none
  else none

/-- Strict byte-lexicographic order on char lists (Rust `Ord` for `str`;
on ASCII data byte order and scalar-value order agree). -/
def lexLt : List Char → List Char → Bool
  | [], [] => false
  | [], _ :: _ => true
  | _ :: _, [] => false
  | a :: as_, b :: bs => if a < b then true else if b < a then false else lexLt as_ bs

/-- `≤` for the word sort. -/
def lexLe (a b : String) : Bool := !(lexLt b.data a.data)

/-- Insertion step of the stable sort used to model `Vec::sort`. -/
def insertLe (x : String) : List String → List String
  | [] => [x]
  | y :: ys => if lexLe x y then x :: y :: ys else y :: insertLe x ys

/-- Stable insertion sort modelling `Vec::sort` on words. -/
def sortLe : List String → List String
  | [] => []
  | x :: xs => insertLe x (sortLe xs)

/-- Rust `Vec::dedup`: removes consecutive duplicates (the retained
element of a run of equal strings is that string itself). -/
def dedupConsec : List String → List String
  | [] => []
  | x :: r =>
    match dedupConsec r with
    | [] => [x]
    | y :: t => if x = y then y :: t else x :: y :: t

/-! ## Data model: `Flavor`, `Origin`, `Location`, `Var` (src/main.rs 570-675) -/

/-- `enum Flavor` (src/main.rs 570-575). -/
inductive Flavor where
  | Undefined
  | Simple
  | Recursive
deriving DecidableEq, Repr

/-- `enum Origin` (src/main.rs 577-587). -/
inductive Origin where
  | Undefined
  | Default
  | Env
  | EnvOverride
  | File
  | CmdLine
  | Override
  | Automatic
deriving DecidableEq, Repr

/-- `struct Location` (src/main.rs 671-675). -/
structure Location where
  file_name : String
  line : Nat
deriving DecidableEq, Repr

/-- `struct Var` (src/main.rs 589-599). -/
structure Var where
  flavor : Flavor
  origin : Origin
  loc : Option Location
  name : String
  value : String
  exported : Bool
  unexported : Bool
  ex_exported : Bool
deriving DecidableEq, Repr

/-- `Var::new` (src/main.rs 602-622).  `sync_env` only mirrors the value
into the process environment (an external collaborator per the spec), so
the cell itself is the plain record. -/
def Var.new (flavor : Flavor) (origin : Origin) (loc : Option Location)
    (name value : String) (exported : Bool) : Var :=
  { flavor := flavor, origin := origin, loc := loc, name := name, value := value,
    exported := exported, unexported := false, ex_exported := false }

/-- `Var::store` (src/main.rs 642-645): unconditionally replaces the
stored value (there is no origin/precedence check in the source). -/
def Var.store (v : Var) (value : String) : Var := { v with value := value }

/-- `Var::append` (src/main.rs 647-651): push a single space, then the
trimmed argument. -/
def Var.append (v : Var) (value : String) : Var :=
  { v with value := v.value ++ " " ++ rustTrim value }

/-- The variable store: `HashMap<String, Var>` modelled as an
association list with the first binding for a key authoritative. -/
abbrev Vars := List (String × Var)

/-- `HashMap::get`. -/
def varsGet (vs : Vars) (k : String) : Option Var :=
  match vs with
  | [] => none
  | (k', v) :: rest => if k' = k then some v else varsGet rest k

/-- `HashMap::insert` (replaces an existing binding, else appends). -/
def varsInsert (vs : Vars) (k : String) (v : Var) : Vars :=
  match vs with
  | [] => [(k, v)]
  | (k', v') :: rest => if k' = k then (k, v) :: rest else (k', v') :: varsInsert rest k v

/-- `HashMap::get_mut` followed by a mutation: update in place when the
key is present, otherwise leave the store unchanged. -/
def varsUpdate (vs : Vars) (k : String) (f : Var → Var) : Vars :=
  match vs with
  | [] => []
  | (k', v') :: rest => if k' = k then (k', f v') :: rest else (k', v') :: varsUpdate rest k f

/-- `HashMap::remove`. -/
def varsRemove (vs : Vars) (k : String) : Vars :=
  match vs with
  | [] => []
  | (k', v') :: rest => if k' = k then rest else (k', v') :: varsRemove rest k

/-! ## Expansion engine results and oracles -/

/-- Result of running the expansion engine.  `ok` carries the produced
text and the (possibly mutated) variable store; `fatal code msg` models
`println!(msg); std::process::exit(code)`; `panicked` models a Rust
panic (`unwrap`/`expect`/`todo!`/out-of-order slice); `fuelOut` is the
modelling artefact for exhausted recursion fuel (the real program loops
forever on such inputs). -/
inductive ExpandResult where
  | ok (out : String) (vars : Vars)
  | fatal (code : Nat) (msg : String)
  | panicked
  | fuelOut
deriving DecidableEq, Repr

/-- External collaborators of the evaluator, exactly the operations the
source performs through `std::process::Command`, `glob` and
`std::path` (out of scope per the specification): these become oracle
functions. -/
structure Ctx where
  /-- `$(shell …)`: `Command::new(shell).args(flags).arg(cmd).output()`,
  returning captured stdout and the exit code
  (`status.code().unwrap_or_default()`). -/
  shellOracle : String → List String → String → String × Int
  /-- Recipe execution: `Command::new(shell).arg(flags).arg(cmd).status()`
  (the flags are passed as one argument here), returning the exit code. -/
  runCmd : String → String → String → Int
  /-- `glob::glob_with` results for `$(wildcard …)`. -/
  globOracle : String → List String
  /-- `Path::canonicalize` for `$(abspath …)`; `none` models an error
  (mapped to the empty string by `unwrap_or_default`). -/
  abspathOracle : String → Option String
  /-- `Path::metadata().modified()`: `none` models a missing file or a
  metadata error. -/
  mtime : String → Option Nat

/-- Diagnostic prefix `"{file}:{line}: "` used by every fatal message. -/
def locPre (loc : Location) : String := loc.file_name ++ ":" ++ toString loc.line ++ ": "

/-- Message of `fatal_double_and_single` (src/main.rs 41-44); note there
is no trailing period after `Stop`. -/
def msg_double_and_single (loc : Location) (target : String) : String :=
  locPre loc ++ "*** target file '" ++ target ++ "' has both : and :: entries.  Stop"

/-- Message of `fatal_arg_count` (src/main.rs 46-52). -/
def msg_arg_count (loc : Location) (given : Nat) (func : String) : String :=
  locPre loc ++ "*** insufficient number of arguments (" ++ toString given
    ++ ") to function '" ++ func ++ "'.  Stop."

/-- Message of `fatal_unterm_var` (src/main.rs 54-60). -/
def msg_unterm_var (loc : Location) : String :=
  locPre loc ++ "*** unterminated variable reference.  Stop."

/-! ## `get_all_args` / `get_args` (src/main.rs 62-114) -/

/-- Result of the argument splitters. -/
inductive ArgsOut where
  | ok (args : List String)
  | fatal (code : Nat) (msg : String)
  | panicked
deriving DecidableEq, Repr

/-- The `while match src.next()` loop of `get_all_args` (src/main.rs
68-101): split on commas at delimiter depth zero; matched closers are
kept in the current buffer; a closer with an empty delimiter stack
panics (`delim_stack.chars().last().unwrap()`), a mismatched closer is
`fatal_unterm_var`. -/
def get_all_args_loop (loc : Location) :
    List Char → List Char → List Char → List String → ArgsOut
  | [], _delims, buf, args => .ok (args ++ [buf.asString])
  | c :: rest, delims, buf, args =>
    if c = ')' ∨ c = '}' then
      match delims with
      | [] => .panicked
      | d :: ds =>
        if (c = ')' ∧ d = '(') ∨ (c = '}' ∧ d = '{') then
          get_all_args_loop loc rest ds (buf ++ [c]) args
        else .fatal 2 (msg_unterm_var loc)
    else if c = '(' ∨ c = '{' then
      get_all_args_loop loc rest (c :: delims) (buf ++ [c]) args
    else if c = ',' ∧ delims.isEmpty then
      get_all_args_loop loc rest delims [] (args ++ [buf.asString])
    else
      get_all_args_loop loc rest delims (buf ++ [c]) args

/-- `get_all_args` (src/main.rs 62-104); its `func` parameter is unused
in the source too. -/
def get_all_args (loc : Location) (_func : String) (src : String) : ArgsOut :=
  get_all_args_loop loc src.data [] [] []

/-- `get_args::<N>` (src/main.rs 106-114): the first `n` arguments, or
`fatal_arg_count` at the first missing index (which is the number of
arguments supplied). -/
def get_args (loc : Location) (func : String) (src : String) (n : Nat) : ArgsOut :=
  match get_all_args loc func src with
  | .ok args =>
    if args.length < n then .fatal 2 (msg_arg_count loc args.length func)
    else .ok (args.take n)
  | e => e

/-! ## The `SubType` dispatch table (src/main.rs 1363-1395, 1444-1557) -/

/-- `enum SubType` (src/main.rs 1363-1395).  `AddPfx`/`AddSfx` carry the
source's `addprefix`/`addsuffix` cases. -/
inductive SubType where
  | Var
  | Info
  | Shell
  | Subst
  | Warn
  | BaseName
  | AddPfx
  | AddSfx
  | Sort
  | FirstWord
  | LastWord
  | Words
  | Suffix
  | Join
  | Dir
  | NotDir
  | AbsPath
  | FindString
  | Error
  | Call
  | Flavor
  | Origin
  | ForEach
  | Word
  | WordList
  | PatSubst
  | SubstRef
  | Strip
  | WildCard
  | Value
deriving DecidableEq, Repr

/-- The function-name recognition switch run at the first depth-one
space of a `$(...)` group (src/main.rs 1444-1557). -/
def funcOf (s : String) : Option SubType :=
  match s with
  | "info" => some .Info
  | "shell" => some .Shell
  | "subst" => some .Subst
  | "warning" => some .Warn
  | "basename" => some .BaseName
  | "addprefix" => some .AddPfx
  | "addsuffix" => some .AddSfx
  | "sort" => some .Sort
  | "firstword" => some .FirstWord
  | "lastword" => some .LastWord
  | "words" => some .Words
  | "word" => some .Word
  | "wordlist" => some .WordList
  | "suffix" => some .Suffix
  | "join" => some .Join
  | "notdir" => some .NotDir
  | "dir" => some .Dir
  | "abspath" => some .AbsPath
  | "findstring" => some .FindString
  | "error" => some .Error
  | "call" => some .Call
  | "flavor" => some .Flavor
  | "origin" => some .Origin
  | "foreach" => some .ForEach
  | "patsubst" => some .PatSubst
  | "strip" => some .Strip
  | "wildcard" => some .WildCard
  | "value" => some .Value
  | _ => none

/-! ## Word-wise helpers for the path functions (src/main.rs 1660-1834)

The source iterates the words reversed, builds the output reversed and
reverses once at the end; these helpers translate that literally (the
resulting leading-space/trailing-space quirks included). -/

/-- One word of the `basename` branch (src/main.rs 1664-1691): scan the
reversed word; consume up to and including the first `.`, but keep the
scanned chars when a `/` or the start of the word is reached first. -/
def basename_one (name : String) : List Char :=
  let rname := name.data.reverse
  let purged := rname.takeWhile (fun c => !(c = '.' || c = '/'))
  match rname.dropWhile (fun c => !(c = '.' || c = '/')) with
  | [] => purged
  | '.' :: r => r
  | r => purged ++ r

/-- The scan of one reversed word in the `suffix` branch (src/main.rs
1698-1715): push chars until a pushed `.` stops the scan; reaching `/`
or the start of the word means there is no suffix. -/
def suffix_scan : List Char → List Char × Bool
  | [] => ([], true)
  | '/' :: _ => ([], true)
  | c :: r =>
    if c = '.' then ([c], false)
    else
      let (p, nd) := suffix_scan r
      (c :: p, nd)

/-- One word of the `suffix` branch (src/main.rs 1694-1721). -/
def suffix_one (name : String) : List Char :=
  let (p, nd) := suffix_scan name.data.reverse
  if nd then [] else p

/-- One word of the `notdir` branch (src/main.rs 1786-1804). -/
def notdir_one (name : String) : List Char :=
  name.data.reverse.takeWhile (fun c => !(c = '/'))

/-- One word of the `dir` branch (src/main.rs 1806-1834): a word without
`/` contributes `/.` to the reversed output (i.e. `./`). -/
def dir_one (name : String) : List Char :=
  let rname := name.data.reverse
  match rname.dropWhile (fun c => !(c = '/')) with
  | [] => ['/', '.']
  | r => r

/-- The shared shape of the four path branches: fold the reversed word
list, appending each word's contribution and a space, and reverse the
final output. -/
def revwords_fold (f : String → List Char) (arg : String) : String :=
  (((splitWhitespace arg).reverse.foldl (fun out n => out ++ f n ++ [' ']) []).reverse).asString

/-! ## `patsubst` / substitution-reference word logic
(src/main.rs 2051-2147) -/

/-- One word of the `%`-pattern splice shared by `patsubst` and the
substitution reference: `none` means the word does not match and is
dropped (the source has no `else` branch).  Lengths are char counts;
the source uses byte lengths, which agree on the ASCII data involved. -/
def patsubst_word (pre post : List Char) (split : Option (String × String))
    (rhs w : String) : Option (List Char) :=
  if pre.length + post.length ≤ w.data.length
      && isPreOf pre w.data && isPreOf post.reverse w.data.reverse then
    some (match split with
      | some (ap, app) =>
        ap.data ++ ((w.data.take (w.data.length - post.length)).drop pre.length) ++ app.data
      | none => rhs.data)
  else none

/-- The `%`-pattern word loop with its trailing `out.pop()`. -/
def patsubst_words (pre post : List Char) (split : Option (String × String))
    (rhs : String) (ws : List String) : String :=
  ((ws.foldl (fun out w =>
      match patsubst_word pre post split rhs w with
      | some l => out ++ l ++ [' ']
      | none => out) []).dropLast).asString

/-- The `%`-free `patsubst` word loop (src/main.rs 2132-2146): exact
word equality, every word kept. -/
def patsubst_plain (lhs rhs : String) (ws : List String) : String :=
  ((ws.foldl (fun out w =>
      out ++ (if w = lhs then rhs.data else w.data) ++ [' ']) []).dropLast).asString

/-- The `%`-free substitution-reference word loop (src/main.rs
2086-2098): replace a trailing match of `lhs` by `rhs`; words without
the trailing match are dropped (the source has no `else` branch). -/
def substref_plain (lhs rhs : String) (ws : List String) : String :=
  ((ws.foldl (fun out w =>
      if endsWithStr w lhs then
        out ++ (w.data.take (w.data.length - lhs.data.length)) ++ rhs.data ++ [' ']
      else out) []).dropLast).asString

/-- Join words, one trailing space each (the `out.extend(...); out.push(' ')`
pattern without a final `pop`). -/
def joinSpTrail (ws : List String) : String := String.join (ws.map (· ++ " "))

/-- Join words with single separating spaces (the same pattern followed
by `out.pop()`). -/
def joinSp (ws : List String) : String := (joinSpTrail ws).data.dropLast.asString

/-! ## `Var::eval` and the function dispatcher `expand_ng`

The nested calls to `expand_simple_ng` are abstracted as the parameter
`ev : Location → Vars → List Char → ExpandResult`; the fuel-indexed
`expand_level` below instantiates `ev` with the next-lower level, which
keeps every definition structurally recursive. -/

/-- `Var::eval` (src/main.rs 653-668): a Recursive cell expands its
stored text in the current store (at the cell's own location when it has
one); Simple and Undefined cells return the stored value verbatim. -/
def Var.eval (ev : Location → Vars → List Char → ExpandResult)
    (loc : Location) (vars : Vars) (v : Var) : ExpandResult :=
  match v.flavor with
  | .Recursive => ev (v.loc.getD loc) vars v.value.data
  | .Undefined => .ok v.value vars
  | .Simple => .ok v.value vars

/-- The `for (i, arg) in args.enumerate()` loop of the `call` branch
(src/main.rs 1868-1883): expand each argument with the cloned store and
bind it as the Simple variable `i+1`; returns the final clone and
`highest`. -/
def call_loop (ev : Location → Vars → List Char → ExpandResult) (loc : Location) :
    Vars → Nat → Nat → List String → Except ExpandResult (Vars × Nat)
  | varsC, _i, highest, [] => .ok (varsC, highest)
  | varsC, i, _highest, a :: rest =>
    match ev loc varsC a.data with
    | .ok s varsC' =>
      let n := toString (i + 1)
      call_loop ev loc (varsInsert varsC' n (Var.new .Simple .File (some loc) n s false))
        (i + 1) (i + 2) rest
    | e => .error e

/-- The `for i in highest..100` cleanup of the `call` branch
(src/main.rs 1886-1888): remove the positional variables above the ones
just bound. -/
def call_remove (varsC : Vars) (highest : Nat) : Vars :=
  (List.range' highest (100 - highest)).foldl (fun vs i => varsRemove vs (toString i)) varsC

/-- The word loop of the `foreach` branch (src/main.rs 1964-1979): bind
the loop variable, expand the body with the same cloned store, append
with a trailing space. -/
def foreach_loop (ev : Location → Vars → List Char → ExpandResult) (loc : Location)
    (nm : String) (body : List Char) :
    Vars → List Char → List String → Except ExpandResult (List Char × Vars)
  | varsC, out, [] => .ok (out, varsC)
  | varsC, out, w :: rest =>
    let varsC' := varsInsert varsC nm (Var.new .Simple .File (some loc) nm w false)
    match ev loc varsC' body with
    | .ok s varsC'' => foreach_loop ev loc nm body varsC'' (out ++ s.data ++ [' ']) rest
    | e => .error e

/-- The function dispatch of `expand_ng` (src/main.rs 1570-2185): one
branch per `SubType`, operating on the collected group content `arg`. -/
def expand_ng (ev : Location → Vars → List Char → ExpandResult) (ctx : Ctx)
    (loc : Location) (vars : Vars) (func : SubType) (arg : List Char) : ExpandResult :=
  match func with
  | .Var =>
    match ev loc vars (trimL arg) with
    | .ok name vars =>
      match varsGet vars name with
      | some v => Var.eval ev loc vars v
      | none => .ok "" vars
    | e => e
  | .Shell =>
    match ev loc vars arg with
    | .ok cmd vars =>
      -- `process_for_shell` is the identity (src/main.rs 347-371)
      match (splitWhitespace cmd).head? with
      | none => .panicked
      | some _cmd_name =>
        match varsGet vars "SHELL" with
        | none => .panicked
        | some shellv =>
          match Var.eval ev loc vars shellv with
          | .ok shell vars =>
            match varsGet vars ".SHELLFLAGS" with
            | none => .panicked
            | some flagsv =>
              match Var.eval ev loc vars flagsv with
              | .ok flags vars =>
                let r := ctx.shellOracle shell (splitWhitespace flags) cmd
                let n : String := ".SHELLSTATUS"
                .ok r.1 (varsInsert vars n (Var.new .Simple .Env (some loc) n (toString r.2) false))
              | e => e
          | e => e
    | e => e
  | .Info =>
    match ev loc vars arg with
    | .ok _ vars => .ok "" vars
    | e => e
  | .Subst =>
    match splitOnChar ',' arg.asString with
    | f0 :: t0 :: x0 :: _ =>
      match ev loc vars f0.data with
      | .ok frm vars =>
        match ev loc vars t0.data with
        | .ok toS vars =>
          match ev loc vars x0.data with
          | .ok text vars => .ok (rustReplace text frm toS) vars
          | e => e
        | e => e
      | e => e
    | _ => .panicked
  | .Warn =>
    match ev loc vars arg with
    | .ok _ vars => .ok "" vars
    | e => e
  | .BaseName =>
    match ev loc vars arg with
    | .ok s vars => .ok (revwords_fold basename_one s) vars
    | e => e
  | .Suffix =>
    match ev loc vars arg with
    | .ok s vars => .ok (revwords_fold suffix_one s) vars
    | e => e
  | .AddPfx =>
    match splitOnChar ',' arg.asString with
    | p0 :: a0 :: _ =>
      match ev loc vars p0.data with
      | .ok pfx vars =>
        match ev loc vars a0.data with
        | .ok args vars =>
          .ok ((splitWhitespace args).foldl (fun s x => s ++ " " ++ (pfx ++ x)) "") vars
        | e => e
      | e => e
    | _ => .panicked
  | .AddSfx =>
    match splitOnChar ',' arg.asString with
    | s0 :: a0 :: _ =>
      match ev loc vars s0.data with
      | .ok sfx vars =>
        match ev loc vars a0.data with
        | .ok args vars =>
          .ok ((splitWhitespace args).foldl (fun s x => s ++ " " ++ (x ++ sfx)) "") vars
        | e => e
      | e => e
    | _ => .panicked
  | .Sort =>
    match ev loc vars arg with
    | .ok s vars => .ok (joinSpTrail (dedupConsec (sortLe (splitWhitespace s)))) vars
    | e => e
  | .FirstWord =>
    match ev loc vars arg with
    | .ok s vars => .ok (((splitWhitespace s).head?).getD "") vars
    | e => e
  | .LastWord =>
    match ev loc vars arg with
    | .ok s vars => .ok (((splitWhitespace s).getLast?).getD "") vars
    | e => e
  | .Words =>
    match ev loc vars arg with
    | .ok s vars => .ok (toString (splitWhitespace s).length) vars
    | e => e
  | .Join =>
    match splitOnChar ',' arg.asString with
    | a0 :: b0 :: _ =>
      match ev loc vars a0.data with
      | .ok s1 vars =>
        match ev loc vars b0.data with
        | .ok s2 vars =>
          .ok (joinSpTrail ((List.zip (splitWhitespace s1) (splitWhitespace s2)).map
            (fun p => p.1 ++ p.2))) vars
        | e => e
      | e => e
    | _ => .panicked
  | .NotDir =>
    match ev loc vars arg with
    | .ok s vars => .ok (revwords_fold notdir_one s) vars
    | e => e
  | .Dir =>
    match ev loc vars arg with
    | .ok s vars => .ok (revwords_fold dir_one s) vars
    | e => e
  | .AbsPath =>
    match ev loc vars arg with
    | .ok s vars =>
      .ok ((splitWhitespace s).foldl
        (fun acc x => acc ++ " " ++ ((ctx.abspathOracle x).getD "")) "") vars
    | e => e
  | .FindString =>
    match splitOnChar ',' arg.asString with
    | s0 :: r0 :: _ =>
      match ev loc vars s0.data with
      | .ok s vars =>
        match ev loc vars r0.data with
        | .ok rhs vars => .ok (if containsStr rhs s then s else "") vars
        | e => e
      | e => e
    | _ => .panicked
  | .Error =>
    match ev loc vars arg with
    | .ok s _vars => .fatal 2 (locPre loc ++ "*** " ++ rustTrim s ++ ".  Stop.")
    | e => e
  | .Call =>
    match get_all_args loc "call" arg.asString with
    | .ok args =>
      match args with
      | [] => .panicked
      | name0 :: rest =>
        match ev loc vars (trimL name0.data) with
        | .ok name vars1 =>
          match call_loop ev loc vars1 0 0 rest with
          | .error e => e
          | .ok (varsC, highest) =>
            let varsC := call_remove varsC highest
            match varsGet varsC name with
            | some v =>
              match Var.eval ev loc varsC v with
              | .ok s _ => .ok s vars1
              | e => e
            | none => .ok "" vars1
        | e => e
    | .fatal c m => .fatal c m
    | .panicked => .panicked
  | .Flavor =>
    match ev loc vars (trimL arg) with
    | .ok name vars =>
      match varsGet vars name with
      | some v =>
        match v.flavor with
        | .Simple => .ok "simple" vars
        | .Recursive => .ok "recursive" vars
        | .Undefined => .ok "undefined" vars
      | none => .ok "undefined" vars
    | e => e
  | .Origin =>
    match ev loc vars (trimL arg) with
    | .ok name vars =>
      match varsGet vars name with
      | some v =>
        match v.origin with
        | .Default => .ok "default" vars
        | .Env => .ok "environment" vars
        | .EnvOverride => .ok "environment override" vars
        | .File => .ok "file" vars
        | .CmdLine => .ok "command line" vars
        | .Override => .ok "override" vars
        | .Automatic => .ok "automatic" vars
        | .Undefined => .ok "undefined" vars
      | none => .ok "undefined" vars
    | e => e
  | .ForEach =>
    match get_args loc "foreach" arg.asString 3 with
    | .ok (a0 :: a1 :: a2 :: _) =>
      match ev loc vars a0.data with
      | .ok a0x vars =>
        match ev loc vars a1.data with
        | .ok a1x vars =>
          match foreach_loop ev loc (rustTrim a0x) a2.data vars [] (splitWhitespace a1x) with
          | .ok (out, _varsC) => .ok out.dropLast.asString vars
          | .error e => e
        | e => e
      | e => e
    | .ok _ => .panicked
    | .fatal c m => .fatal c m
    | .panicked => .panicked
  | .Word =>
    match get_args loc "words" arg.asString 2 with
    | .ok (a0 :: a1 :: _) =>
      match ev loc vars a0.data with
      | .ok a0x vars =>
        match ev loc vars a1.data with
        | .ok a1x vars =>
          match parseUsize (rustTrim a0x) with
          | none => .fatal 2 (locPre loc ++ "*** non-numeric first argument to 'word' function: '"
              ++ a0x ++ "'.  Stop.")
          | some n =>
            if n = 0 then
              .fatal 2 (locPre loc
                ++ "*** first argument to 'word' function must be greater than 0.  Stop.")
            else .ok (((splitWhitespace a1x).get? (n - 1)).getD "") vars
        | e => e
      | e => e
    | .ok _ => .panicked
    | .fatal c m => .fatal c m
    | .panicked => .panicked
  | .WordList =>
    match get_args loc "wordlist" arg.asString 3 with
    | .ok (a0 :: a1 :: a2 :: _) =>
      match ev loc vars a0.data with
      | .ok a0x vars =>
        match ev loc vars a1.data with
        | .ok a1x vars =>
          match ev loc vars a2.data with
          | .ok a2x vars =>
            match parseUsize (rustTrim a0x) with
            | none => .fatal 2 (locPre loc
                ++ "*** non-numeric first argument to 'wordlist' function: '" ++ a0x ++ "'.  Stop.")
            | some n =>
              match parseUsize (rustTrim a1x) with
              | none => .fatal 2 (locPre loc
                  ++ "*** non-numeric second argument to 'wordlist' function: '" ++ a1x ++ "'.  Stop.")
              | some en =>
                if n = 0 then
                  .fatal 2 (locPre loc
                    ++ "*** invalid first argument to 'wordlist' function: '0'.  Stop.")
                else
                  let words := splitWhitespace a2x
                  let a := min (n - 1) words.length
                  let b := min en words.length
                  -- `&words[a..b]` panics when the start exceeds the end
                  if b < a then .panicked
                  else .ok (joinSpTrail ((words.drop a).take (b - a))) vars
          | e => e
        | e => e
      | e => e
    | .ok _ => .panicked
    | .fatal c m => .fatal c m
    | .panicked => .panicked
  | .PatSubst =>
    match get_args loc "patsubst" arg.asString 3 with
    | .ok (a0 :: a1 :: a2 :: _) =>
      match ev loc vars (trimL a0.data) with
      | .ok lhs vars =>
        match ev loc vars (trimL a1.data) with
        | .ok rhs vars =>
          match ev loc vars (trimL a2.data) with
          | .ok v vars =>
            if containsStr lhs "%" then
              match splitOnceStr "%" lhs with
              | some (pre, post) =>
                .ok (patsubst_words pre.data post.data (splitOnceStr "%" rhs) rhs
                  (splitWhitespace v)) vars
              | none => .panicked
            else .ok (patsubst_plain lhs rhs (splitWhitespace v)) vars
          | e => e
        | e => e
      | e => e
    | .ok _ => .panicked
    | .fatal c m => .fatal c m
    | .panicked => .panicked
  | .SubstRef =>
    match splitOnceStr ":" arg.asString with
    | none => .panicked
    | some (var0, rhs0) =>
      match splitOnceStr "=" rhs0 with
      | none => .panicked
      | some (lhs0, rhs1) =>
        match ev loc vars (trimL lhs0.data) with
        | .ok lhs vars =>
          match ev loc vars (trimL rhs1.data) with
          | .ok rhs vars =>
            match ev loc vars (trimL var0.data) with
            | .ok var vars =>
              if containsStr lhs "%" then
                match splitOnceStr "%" lhs with
                | some (pre, post) =>
                  match varsGet vars (rustTrim var) with
                  | some v =>
                    match Var.eval ev loc vars v with
                    | .ok vv vars =>
                      .ok (patsubst_words pre.data post.data (splitOnceStr "%" rhs) rhs
                        (splitWhitespace vv)) vars
                    | e => e
                  | none => .ok "" vars
                | none => .panicked
              else
                match varsGet vars var with
                | some v =>
                  match Var.eval ev loc vars v with
                  | .ok vv vars => .ok (substref_plain lhs rhs (splitWhitespace vv)) vars
                  | e => e
                | none => .ok "" vars
            | e => e
          | e => e
        | e => e
  | .Strip =>
    match ev loc vars arg with
    | .ok s vars => .ok (joinSp (splitWhitespace s)) vars
    | e => e
  | .WildCard =>
    match ev loc vars arg with
    | .ok s vars => .ok (joinSp (ctx.globOracle s)) vars
    | e => e
  | .Value =>
    match ev loc vars arg with
    | .ok s vars =>
      match varsGet vars (rustTrim s) with
      | some v => .ok v.value vars
      | none => .ok "" vars
    | e => e

/-! ## The scanner `expand_simple_ng` / group collection of `expand_ng`
(src/main.rs 1404-1563, 2222-2246) -/

/-- Scanner state: either copying literal chars, or inside the
balanced-group collection loop of `expand_ng` (src/main.rs 1407-1563)
with its delimiter stack, collected content, detected function,
`had_space`, `hit_colon` (initialised `true` in the source) and
`defo_subst` flags. -/
inductive ScanMode where
  | copy
  | collect (delims : List Char) (arg : List Char) (func : SubType)
      (had_space hit_colon defo_subst : Bool)

/-- The combined scan: `expand_simple_ng`'s char loop (src/main.rs
2231-2243) with `expand_ng`'s `$`-dispatch and group collection inlined
as a state machine, so that the whole pass is structurally recursive on
the input.  The final closer of a group is pushed and then popped by the
source (`arg.pop()`), so here it is simply not appended. -/
def expand_scan (ev : Location → Vars → List Char → ExpandResult) (ctx : Ctx)
    (loc : Location) : Vars → List Char → ScanMode → List Char → ExpandResult
  | vars, out, .copy, [] => .ok out.asString vars
  | vars, out, .copy, c :: rest =>
    if c = '$' then
      match rest with
      | [] => .ok (out ++ ['$']).asString vars
      | '$' :: r => expand_scan ev ctx loc vars (out ++ ['$']) .copy r
      | '(' :: r => expand_scan ev ctx loc vars out (.collect ['('] [] .Var false true false) r
      | '{' :: r => expand_scan ev ctx loc vars out (.collect ['{'] [] .Var false true false) r
      | c' :: r =>
        match varsGet vars c'.toString with
        | some v =>
          match Var.eval ev loc vars v with
          | .ok s vars => expand_scan ev ctx loc vars (out ++ s.data) .copy r
          | e => e
        | none => expand_scan ev ctx loc vars out .copy r
    else expand_scan ev ctx loc vars (out ++ [c]) .copy rest
  | _vars, _out, .collect _ _ _ _ _ _, [] => .panicked
  | vars, out, .collect delims arg func had_space hit_colon defo_subst, c :: rest =>
    if c = ')' ∨ c = '}' then
      match delims with
      | [] => .panicked
      | d :: ds =>
        if (c = ')' ∧ d = '(') ∨ (c = '}' ∧ d = '{') then
          match ds with
          | [] =>
            let func' := if func = .Var ∧ defo_subst then SubType.SubstRef else func
            match expand_ng ev ctx loc vars func' arg with
            | .ok s vars => expand_scan ev ctx loc vars (out ++ s.data) .copy rest
            | e => e
          | _ :: _ =>
            expand_scan ev ctx loc vars out
              (.collect ds (arg ++ [c]) func had_space hit_colon defo_subst) rest
        else .fatal 2 (msg_unterm_var loc)
    else if c = '(' ∨ c = '{' then
      expand_scan ev ctx loc vars out
        (.collect (c :: delims) (arg ++ [c]) func had_space hit_colon defo_subst) rest
    else if c = ':' ∧ delims.length = 1 then
      expand_scan ev ctx loc vars out
        (.collect delims (arg ++ [c]) func had_space true defo_subst) rest
    else if c = '=' ∧ delims.length = 1 ∧ hit_colon then
      expand_scan ev ctx loc vars out
        (.collect delims (arg ++ [c]) func had_space hit_colon true) rest
    else if c = ' ' ∧ delims.length = 1 ∧ ¬had_space then
      match funcOf (trimL (arg ++ [' '])).asString with
      | some g =>
        expand_scan ev ctx loc vars out
          (.collect delims [] g true hit_colon defo_subst) rest
      | none =>
        expand_scan ev ctx loc vars out
          (.collect delims (arg ++ [' ']) .Var true hit_colon defo_subst) rest
    else
      expand_scan ev ctx loc vars out
        (.collect delims (arg ++ [c]) func had_space hit_colon defo_subst) rest

/-- The fuel-indexed expansion family: level `f + 1` scans with nested
expansions (variable reads, function arguments, `call`/`foreach`
bodies) interpreted at level `f`.  Level `0` is exhausted fuel — the
real program recurses without bound on such inputs. -/
def expand_level (ctx : Ctx) : Nat → Location → Vars → List Char → ExpandResult
  | 0, _, _, _ => .fuelOut
  | f + 1, loc, vars, input => expand_scan (expand_level ctx f) ctx loc vars [] .copy input

/-- `expand_simple_ng` (src/main.rs 2222-2246) at a given fuel. -/
def expand_simple_ng (ctx : Ctx) (fuel : Nat) (loc : Location) (vars : Vars)
    (input : String) : ExpandResult :=
  expand_level ctx fuel loc vars input.data

/-! ## Lemmas about the scanner -/

/-- Chars of a plain variable name: no `$`, no delimiters, no `:`/`=`,
no whitespace.  Such chars are copied through the scanner and the group
collector without side conditions. -/
def plainChar (c : Char) : Bool :=
  !(c = '$' || c = '(' || c = ')' || c = '{' || c = '}' || c = ':' || c = '='
    || c = ' ' || c.isWhitespace)

/-- Chars that do not interact with the delimiter stack of the group
collector. -/
def groupSafe (c : Char) : Bool := !(c = '(' || c = ')' || c = '{' || c = '}')

theorem dropWhile_of_head_false {p : Char → Bool} {l : List Char}
    (h : ∀ c ∈ l, p c = false) : l.dropWhile p = l := by
  cases l with
  | nil => rfl
  | cons c r =>
    have hc := h c (by simp)
    simp [List.dropWhile, hc]

theorem trimL_plain {l : List Char} (h : ∀ c ∈ l, c.isWhitespace = false) :
    trimL l = l := by
  unfold trimL rsIsWs
  rw [dropWhile_of_head_false h, dropWhile_of_head_false, List.reverse_reverse]
  intro c hc
  exact h c (List.mem_reverse.mp hc)

@[simp] theorem asString_data (s : String) : s.data.asString = s := rfl

@[simp] theorem data_asString (l : List Char) : l.asString.data = l := rfl

theorem plainChar_spec {c : Char} (h : plainChar c = true) :
    ¬(c = '$') ∧ ¬(c = '(') ∧ ¬(c = ')') ∧ ¬(c = '{') ∧ ¬(c = '}') ∧ ¬(c = ':')
      ∧ ¬(c = '=') ∧ ¬(c = ' ') ∧ c.isWhitespace = false := by
  simp only [plainChar, Bool.not_eq_true', Bool.or_eq_false_iff,
    decide_eq_false_iff_not, Bool.not_eq_true] at h
  tauto

theorem scan_no_dollar (ev : Location → Vars → List Char → ExpandResult) (ctx : Ctx)
    (loc : Location) (xs : List Char) (h : ∀ c ∈ xs, ¬(c = '$')) :
    ∀ vars out, expand_scan ev ctx loc vars out .copy xs = .ok (out ++ xs).asString vars := by
  induction xs with
  | nil => intro vars out; simp [expand_scan]
  | cons c r ih =>
    intro vars out
    have hc : ¬(c = '$') := h c (by simp)
    rw [expand_scan.eq_def]
    simp only [hc, if_false, ite_false, reduceIte]
    rw [ih (fun c hc => h c (by simp [hc]))]
    simp

theorem collect_absorb (ev : Location → Vars → List Char → ExpandResult) (ctx : Ctx)
    (loc : Location) (vars : Vars) (out rest : List Char) (xs : List Char)
    (h : ∀ c ∈ xs, plainChar c = true) :
    ∀ arg, expand_scan ev ctx loc vars out (.collect ['('] arg .Var false true false) (xs ++ rest)
      = expand_scan ev ctx loc vars out (.collect ['('] (arg ++ xs) .Var false true false) rest := by
  induction xs with
  | nil => intro arg; simp
  | cons c r ih =>
    intro arg
    obtain ⟨h1, h2, h3, h4, h5, h6, h7, h8, h9⟩ := plainChar_spec (h c (by simp))
    rw [List.cons_append, expand_scan.eq_def]
    simp only [h1, h2, h3, h4, h5, h6, h7, h8, false_and, and_false, if_false, or_self,
      ite_false, reduceIte, false_or, or_false]
    rw [ih (fun c hc => h c (by simp [hc])) (arg ++ [c])]
    simp

theorem collect_close (ev : Location → Vars → List Char → ExpandResult) (ctx : Ctx)
    (loc : Location) (vars : Vars) (out rest arg : List Char) (func : SubType)
    (had_space hit_colon defo_subst : Bool) (hfunc : func = .Var → defo_subst = false) :
    expand_scan ev ctx loc vars out (.collect ['('] arg func had_space hit_colon defo_subst)
        (')' :: rest)
      = match expand_ng ev ctx loc vars func arg with
        | .ok s vars' => expand_scan ev ctx loc vars' (out ++ s.data) .copy rest
        | e => e := by
  have hf : (if func = SubType.Var ∧ defo_subst = true then SubType.SubstRef else func) = func := by
    by_cases hv : func = SubType.Var
    · simp [hv, hfunc hv]
    · simp [hv]
  rw [expand_scan.eq_def]
  simp only [hf, reduceIte, reduceCtorEq, Bool.or_eq_true, decide_eq_true_eq,
    or_true, true_or, if_true, and_self, true_and, or_false, false_or]

theorem expand_level_plain (ctx : Ctx) (f : Nat) (loc : Location) (vars : Vars)
    (s : List Char) (h : ∀ c ∈ s, ¬(c = '$')) :
    expand_level ctx (f + 1) loc vars s = .ok s.asString vars := by
  rw [expand_level, scan_no_dollar _ _ _ _ h]
  simp

theorem isPreOf_append {p : List Char} : ∀ {l : List Char},
    isPreOf p l = true → p ++ l.drop p.length = l := by
  induction p with
  | nil => intro l _; simp
  | cons a as ih =>
    intro l h
    cases l with
    | nil => simp [isPreOf] at h
    | cons b bs =>
      simp only [isPreOf, Bool.and_eq_true, decide_eq_true_eq] at h
      simp only [List.cons_append, List.length_cons, List.drop_succ_cons, h.1]
      exact congrArg _ (ih h.2)

theorem listReplaceAux_self (pat : List Char) : ∀ (f : Nat) (l : List Char),
    listReplaceAux pat pat f l = l := by
  intro f
  induction f with
  | zero => intro l; rfl
  | succ f ih =>
    intro l
    cases l with
    | nil => rfl
    | cons c rest =>
      rw [listReplaceAux]
      by_cases h : isPreOf pat (c :: rest) = true
      · simp only [h, if_true, ih]
        exact isPreOf_append h
      · simp only [h, if_false, Bool.false_eq_true, ih]

theorem listReplaceEmpty_self : ∀ l : List Char, listReplaceEmpty [] l = l := by
  intro l
  induction l with
  | nil => rfl
  | cons c r ih => simp [listReplaceEmpty, ih]

/-- `text.replace(p, p) == text`: replacing a substring by itself is the
identity (including the empty-pattern boundary behaviour). -/
theorem rustReplace_self (s p : String) : rustReplace s p p = s := by
  unfold rustReplace listReplace
  by_cases h : p.data.isEmpty = true
  · simp [h, listReplaceEmpty_self, List.isEmpty_iff.mp h]
  · simp [h, listReplaceAux_self]

theorem splitChAux_no_sep (sep : Char) : ∀ (l buf : List Char),
    (∀ c ∈ l, ¬(c = sep)) → splitChAux sep l buf = [(buf ++ l).asString] := by
  intro l
  induction l with
  | nil => intro buf _; simp [splitChAux]
  | cons c r ih =>
    intro buf h
    rw [splitChAux, if_neg (h c (by simp)), ih (buf ++ [c]) (fun c hc => h c (by simp [hc]))]
    simp

/-! ## Shared concrete fixtures for the closed evaluation theorems -/

/-- A concrete oracle context: `/bin/sh -c "echo hi"` prints `hi` with a
trailing newline and exits 0 (what the real `/bin/sh` does); every other
command produces nothing and exit code 127; all recipe commands succeed;
the filesystem is empty. -/
def ctx0 : Ctx := {
  shellOracle := fun sh fl cmd =>
    if sh = "/bin/sh" ∧ fl = ["-c"] ∧ cmd = "echo hi" then ("hi\n", 0) else ("", 127),
  runCmd := fun _ _ _ => 0,
  globOracle := fun _ => [],
  abspathOracle := fun _ => none,
  mtime := fun _ => none }

/-- A concrete source location. -/
def loc0 : Location := ⟨"Makefile", 1⟩

/-- A store holding only the `SHELL` and `.SHELLFLAGS` defaults that
`main` installs (src/main.rs 165-175). -/
def vars_sh : Vars :=
  [("SHELL", Var.new .Simple .Env none "SHELL" "/bin/sh" true),
   (".SHELLFLAGS", Var.new .Simple .Env none ".SHELLFLAGS" "-c" true)]

/-! ## Claim theorems for the expansion engine -/

/-- Claim C1: reading `$(v)` for a variable whose cell has flavor
`Recursive` with stored text `t` produces exactly the result of
expanding `t` in the variable store current at the read (at the cell's
recorded location when it has one), one fuel level down; for a `Simple`
cell it produces the stored value verbatim, with no further `$`
substitution performed on it. -/
theorem claim_c1 (ctx : Ctx) (f : Nat) (loc : Location) (vars : Vars) (n : String) (c : Var)
    (hplain : n.data.all plainChar = true) (hget : varsGet vars n = some c) :
    (c.flavor = .Recursive →
      expand_simple_ng ctx (f + 2) loc vars ("$(" ++ n ++ ")")
        = expand_simple_ng ctx (f + 1) (c.loc.getD loc) vars c.value) ∧
    (c.flavor = .Simple →
      expand_simple_ng ctx (f + 2) loc vars ("$(" ++ n ++ ")") = .ok c.value vars) := by
  have hall : ∀ ch ∈ n.data, plainChar ch = true := List.all_eq_true.mp hplain
  have hdata : ("$(" ++ n ++ ")").data = '$' :: '(' :: (n.data ++ [')']) := by
    simp [String.data_append]
  have heta : (n.data).asString = n := rfl
  have hstep :
      expand_simple_ng ctx (f + 2) loc vars ("$(" ++ n ++ ")")
        = match expand_level ctx (f + 1) loc vars (trimL n.data) with
          | .ok name vars1 =>
            (match varsGet vars1 name with
             | some v =>
               match Var.eval (expand_level ctx (f + 1)) loc vars1 v with
               | .ok s vars2 => expand_scan (expand_level ctx (f + 1)) ctx loc vars2
                   ([] ++ s.data) .copy []
               | e => e
             | none => expand_scan (expand_level ctx (f + 1)) ctx loc vars1 ([] ++ "".data) .copy [])
          | e => e := by
    rw [expand_simple_ng, hdata, expand_level, expand_scan.eq_def]
    simp only [reduceIte, if_true]
    rw [show (n.data ++ [')']) = n.data ++ ')' :: [] from rfl,
      collect_absorb _ _ _ _ _ _ _ hall,
      collect_close _ _ _ _ _ _ _ _ _ _ _ (fun _ => rfl)]
    simp only [List.nil_append]
    rw [show expand_ng (expand_level ctx (f + 1)) ctx loc vars .Var n.data
        = (match expand_level ctx (f + 1) loc vars (trimL n.data) with
           | .ok name vars1 =>
             (match varsGet vars1 name with
              | some v => Var.eval (expand_level ctx (f + 1)) loc vars1 v
              | none => .ok "" vars1)
           | e => e) from rfl]
    cases expand_level ctx (f + 1) loc vars (trimL n.data) with
    | ok name vars1 =>
      cases hv : varsGet vars1 name with
      | some v =>
        simp only
        cases Var.eval (expand_level ctx (f + 1)) loc vars1 v <;> simp [hv]
      | none => simp [hv, expand_scan]
    | fatal code msg => rfl
    | panicked => rfl
    | fuelOut => rfl
  have htrim : trimL n.data = n.data :=
    trimL_plain (fun ch hc => (plainChar_spec (hall ch hc)).2.2.2.2.2.2.2.2)
  have hname : expand_level ctx (f + 1) loc vars (trimL n.data) = .ok n vars := by
    rw [htrim, expand_level_plain _ _ _ _ _ (fun ch hc => (plainChar_spec (hall ch hc)).1), heta]
  constructor
  · intro hrec
    rw [hstep, hname]
    simp only [hget]
    rw [Var.eval, hrec]
    simp only
    cases hE : expand_level ctx (f + 1) (c.loc.getD loc) vars c.value.data with
    | ok s vars2 =>
      rw [expand_simple_ng, hE]
      simp [expand_scan]
    | fatal code msg => rw [expand_simple_ng, hE]
    | panicked => rw [expand_simple_ng, hE]
    | fuelOut => rw [expand_simple_ng, hE]
  · intro hsimp
    rw [hstep, hname]
    simp only [hget]
    rw [Var.eval, hsimp]
    simp [expand_scan]

/-- A store for the C1 witness: a Recursive cell, a Simple cell whose
value still contains a `$` reference, and the cell the Recursive one
reads. -/
def vars_w : Vars :=
  [("V", Var.new .Recursive .File none "V" "a$(U)" false),
   ("U", Var.new .Simple .File none "U" "1" false),
   ("S", Var.new .Simple .File none "S" "x$(U)y" false)]

/-- Claim C1 witness: concrete instances — reading `$(V)` (Recursive,
text `a$(U)`) equals expanding that text now, and reading `$(S)`
(Simple, value `x$(U)y`) returns the value verbatim, reference and all. -/
theorem claim_c1_witness :
    (expand_simple_ng ctx0 4 loc0 vars_w "$(V)" = expand_simple_ng ctx0 3 loc0 vars_w "a$(U)")
    ∧ (expand_simple_ng ctx0 4 loc0 vars_w "$(S)" = .ok "x$(U)y" vars_w) := by
  constructor
  · exact (claim_c1 ctx0 2 loc0 vars_w "V" (Var.new .Recursive .File none "V" "a$(U)" false)
      (by decide) (by decide)).1 (by decide)
  · exact (claim_c1 ctx0 2 loc0 vars_w "S" (Var.new .Simple .File none "S" "x$(U)y" false)
      (by decide) (by decide)).2 (by decide)

theorem collect_absorb_func (ev : Location → Vars → List Char → ExpandResult) (ctx : Ctx)
    (loc : Location) (g : SubType) (hg : ¬(g = SubType.Var)) (xs : List Char)
    (hxs : ∀ c ∈ xs, groupSafe c = true) :
    ∀ (vars : Vars) (out rest arg : List Char) (b1 b2 : Bool),
      expand_scan ev ctx loc vars out (.collect ['('] arg g true b1 b2) (xs ++ ')' :: rest)
        = match expand_ng ev ctx loc vars g (arg ++ xs) with
          | .ok s vars' => expand_scan ev ctx loc vars' (out ++ s.data) .copy rest
          | e => e := by
  induction xs with
  | nil =>
    intro vars out rest arg b1 b2
    simpa using collect_close ev ctx loc vars out rest arg g true b1 b2 (fun hv => absurd hv hg)
  | cons c xs ih =>
    intro vars out rest arg b1 b2
    have hgs := hxs c (by simp)
    simp only [groupSafe, Bool.not_eq_true', Bool.or_eq_false_iff,
      decide_eq_false_iff_not] at hgs
    obtain ⟨⟨⟨h1, h2⟩, h3⟩, h4⟩ := hgs
    have hxs' : ∀ a ∈ xs, groupSafe a = true := fun a h => hxs a (by simp [h])
    rw [List.cons_append, expand_scan.eq_def]
    simp only [h1, h2, h3, h4, false_and, and_false, if_false, or_self, ite_false,
      reduceIte, false_or, or_false, not_true, List.length_cons, List.length_nil,
      Bool.not_eq_true, and_true, true_and]
    split_ifs with h5 h6
    · rw [ih hxs' vars out rest (arg ++ [c]) true b2]
      simp
    · rw [ih hxs' vars out rest (arg ++ [c]) b1 true]
      simp
    · rw [ih hxs' vars out rest (arg ++ [c]) b1 b2]
      simp

/-- Chars of a `subst` text argument for which the identity is
restorable: no `$` (no references), no group delimiters, and — the
decisive restriction — no comma. -/
def substSafe (c : Char) : Bool :=
  !(c = '$' || c = '(' || c = ')' || c = '{' || c = '}' || c = ',')

/-- Claim C5 counterexample: `$(subst a,a,x,y)` evaluates to `x`, not to
`x,y` — the `subst` branch splits its content on every comma
(src/main.rs 1646 `arg.split(",")`), so the text argument is truncated
at its first comma and the identity fails. -/
theorem claim_c5_counterexample :
    expand_simple_ng ctx0 5 loc0 [] "$(subst a,a,x,y)" = .ok "x" [] ∧ ¬(("x" : String) = "x,y") :=
  ⟨by decide, by decide⟩

/-- Claim C5 (amended): for every text `S` none of whose characters is
a dollar, a parenthesis, a brace or a comma (`substSafe`), expanding
`$(subst a,a,S)` yields `S` unchanged; outside that class the claimed
identity fails — a comma truncates `S` at the naive `split(",")`, and
a `$`, parenthesis or brace changes how the argument region itself is
scanned. -/
theorem claim_c5_amended (ctx : Ctx) (f : Nat) (loc : Location) (vars : Vars) (s : String)
    (hs : s.data.all substSafe = true) :
    expand_simple_ng ctx (f + 2) loc vars ("$(subst a,a," ++ s ++ ")") = .ok s vars := by
  have hall := List.all_eq_true.mp hs
  have hnd : ∀ c ∈ s.data, ¬(c = '$') := by
    intro c hc
    have := hall c hc
    simp only [substSafe, Bool.not_eq_true', Bool.or_eq_false_iff,
      decide_eq_false_iff_not] at this
    tauto
  have hcm : ∀ c ∈ s.data, ¬(c = ',') := by
    intro c hc
    have := hall c hc
    simp only [substSafe, Bool.not_eq_true', Bool.or_eq_false_iff,
      decide_eq_false_iff_not] at this
    tauto
  have hgs : ∀ c ∈ ("a,a,".data ++ s.data), groupSafe c = true := by
    intro c hc
    rcases List.mem_append.mp hc with h | h
    · have : c = 'a' ∨ c = ',' ∨ c = 'a' ∨ c = ',' := by simpa using h
      rcases this with h | h | h | h <;> subst h <;> decide
    · have := hall c h
      simp only [substSafe, Bool.not_eq_true', Bool.or_eq_false_iff,
        decide_eq_false_iff_not] at this
      simp only [groupSafe, Bool.not_eq_true', Bool.or_eq_false_iff,
        decide_eq_false_iff_not]
      tauto
  have hdata : ("$(subst a,a," ++ s ++ ")").data
      = '$' :: '(' :: ("subst".data ++ (' ' :: ("a,a,".data ++ (s.data ++ [')'])))) := by
    simp [String.data_append]
  have hsub : ∀ c ∈ ("subst".data : List Char), plainChar c = true := by
    intro c hc
    have : c = 's' ∨ c = 'u' ∨ c = 'b' ∨ c = 's' ∨ c = 't' := by simpa using hc
    rcases this with h | h | h | h | h <;> subst h <;> decide
  have hfo : funcOf (trimL (['s', 'u', 'b', 's', 't'] ++ [' '])).asString
      = some SubType.Subst := by decide
  have hsplit : splitOnChar ',' (("a,a,".data ++ s.data).asString) = ["a", "a", s] := by
    rw [splitOnChar]
    simp only [data_asString]
    rw [show ("a,a,".data ++ s.data) = 'a' :: ',' :: 'a' :: ',' :: s.data from rfl]
    simp only [splitChAux, Char.reduceEq, reduceIte, List.nil_append]
    rw [splitChAux_no_sep ',' s.data [] (fun c hc => hcm c hc)]
    simp only [List.nil_append, asString_data, List.cons.injEq, and_true, and_self]
    decide
  rw [expand_simple_ng, hdata, expand_level, expand_scan.eq_def]
  simp only [Char.reduceEq, reduceIte, if_true]
  rw [collect_absorb _ ctx loc vars [] _ "subst".data hsub []]
  rw [expand_scan.eq_def]
  simp only [Char.reduceEq, reduceIte, List.length_cons, List.length_nil, Bool.not_eq_true,
    if_true, if_false, and_true, true_and, and_false, false_and, or_self, false_or, or_false,
    not_false_iff, List.nil_append]
  simp only [hfo]
  rw [show "a,a,".data ++ (s.data ++ [')']) = ("a,a,".data ++ s.data) ++ ')' :: ([] : List Char)
    by simp]
  rw [collect_absorb_func _ ctx loc .Subst (by decide) _ hgs vars [] [] [] true false]
  simp only [List.nil_append, expand_ng, hsplit]
  simp only [expand_level_plain ctx f loc vars ['a'] (by decide),
    expand_level_plain ctx f loc vars "a".data (by decide),
    expand_level_plain ctx f loc vars s.data hnd, asString_data]
  rw [rustReplace_self]
  simp [expand_scan]

/-- Claim C5 witness: the amended identity at the concrete comma-free
text `hello world`. -/
theorem claim_c5_witness :
    expand_simple_ng ctx0 3 loc0 [] "$(subst a,a,hello world)" = .ok "hello world" [] :=
  claim_c5_amended ctx0 1 loc0 [] "hello world" (by decide)

/-- Claim C4: `$(shell echo hi)` (with `/bin/sh -c 'echo hi'` producing
stdout `hi` plus a trailing newline, exit code 0) evaluates to the raw
captured stdout `"hi\n"` — the trailing newline is not removed and inner
newlines are not converted (src/main.rs 1624 returns
`String::from_utf8(out.stdout)` unchanged) — while `.SHELLSTATUS` is set
to `0` as claimed. -/
theorem claim_c4_eval :
    expand_simple_ng ctx0 5 loc0 vars_sh "$(shell echo hi)"
      = .ok "hi\n" (varsInsert vars_sh ".SHELLSTATUS"
          (Var.new .Simple .Env (some loc0) ".SHELLSTATUS" "0" false))
    ∧ (varsGet (varsInsert vars_sh ".SHELLSTATUS"
          (Var.new .Simple .Env (some loc0) ".SHELLSTATUS" "0" false)) ".SHELLSTATUS").map
        Var.value = some "0"
    ∧ ¬(("hi\n" : String) = "hi") :=
  ⟨by decide, by decide, by decide⟩

/-- Claim C6: `$(wordlist 3,1,a b)` — a call with numeric `s ≥ 1` and
`e < s` — does not return the empty string: the slice
`&words[min(s-1,len)..min(e,len)]` has its start above its end and the
program panics (src/main.rs 2036-2040).  For `e = s - 1` the slice is
legal and empty, and an in-range call returns the words with a trailing
space. -/
theorem claim_c6_eval :
    expand_simple_ng ctx0 5 loc0 [] "$(wordlist 3,1,a b)" = .panicked
    ∧ expand_simple_ng ctx0 5 loc0 [] "$(wordlist 2,1,a b)" = .ok "" []
    ∧ expand_simple_ng ctx0 5 loc0 [] "$(wordlist 1,2,a b c)" = .ok "a b " [] :=
  ⟨by decide, by decide, by decide⟩

/-! ## Rules, global state and the directive parser (src/main.rs 19-39,
950-971, 2252-2624) -/

/-- `enum VarOp` (src/main.rs 957-964). -/
inductive VarOp where
  | Store (expand : Bool)
  | Append
  | StoreIfUndef
  | Shell
deriving DecidableEq, Repr

/-- `enum RuleData` (src/main.rs 966-971); `Recipie` keeps the source's
spelling. -/
inductive RuleData where
  | Prereq (double_colon : Bool) (text : String)
  | Var (name : String) (op : VarOp) (value : String)
  | Recipie (text : String)
deriving DecidableEq, Repr

/-- `struct Rule` (src/main.rs 950-955). -/
structure Rule where
  location : Location
  targets : List String
  data : RuleData
deriving DecidableEq, Repr

/-- `struct State` (src/main.rs 19-39). -/
structure State where
  debug : Bool
  fullname : String
  basename : String
  dirname : String
  curdir : String
  always_make : Bool
  targets_to_make : List String
  silent : Bool
  rules : List Rule
  in_rule : Bool
  ignore_errors : Bool
  dryrun : Bool
  keep_going : Bool
  phony : List String
  silent_targets : List String
  processed : List String
deriving DecidableEq, Repr

/-- `State::default()`. -/
def State.default : State :=
  { debug := false, fullname := "", basename := "", dirname := "", curdir := "",
    always_make := false, targets_to_make := [], silent := false, rules := [],
    in_rule := false, ignore_errors := false, dryrun := false, keep_going := false,
    phony := [], silent_targets := [], processed := [] }

/-- `Var::export` (src/main.rs 624-628). -/
def Var.export (v : Var) : Var := { v with exported := true, ex_exported := true }

/-- `Var::unexport` (src/main.rs 630-634). -/
def Var.unexport (v : Var) : Var := { v with exported := false, unexported := true }

/-- The rule-detection scan of `parse_line` (src/main.rs 2263-2306):
find the first top-level `:`/`::`/`=` and classify the line.  Closers
pop a possibly-empty delimiter stack (`String::pop` tolerates empty). -/
def pl_rule_scan : List Char → List Char → Bool × Bool
  | [], _ => (false, false)
  | c :: rest, delims =>
    if c = ')' ∨ c = '}' then pl_rule_scan rest delims.tail
    else if c = '(' then pl_rule_scan rest ('(' :: delims)
    else if c = '{' then pl_rule_scan rest ('{' :: delims)
    else if ¬delims.isEmpty then pl_rule_scan rest delims
    else if c = ':' then
      match rest with
      | '=' :: _ => (false, false)
      | ':' :: rest2 =>
        match rest2 with
        | '=' :: _ => (false, false)
        | _ => (true, true)
      | _ => (true, false)
    else if c = '=' then (false, false)
    else pl_rule_scan rest delims

/-- The operator determination run when the first top-level `=` is found
(src/main.rs 2389-2415): pop the last char(s) of the left side to build
`:=`/`::=`/`?=`/`+=`/`!=`/`=`; `none` models the two panics (empty name
after the colon, `todo!` on a fully empty name). -/
def pl_op_split (lhs : List Char) : Option (List Char × List Char) :=
  match lhs.getLast? with
  | none => none
  | some ':' =>
    let lhs1 := lhs.dropLast
    match lhs1.getLast? with
    | none => none
    | some a =>
      if a = ':' then some (lhs1.dropLast, [':', ':', '='])
      else some (lhs1, [':', '='])
  | some a =>
    if a = '?' ∨ a = '+' ∨ a = '!' then some (lhs.dropLast, [a, '='])
    else some (lhs, ['='])

/-- The assignment-operator scan of `parse_line` (src/main.rs
2344-2425): split `src` into name, operator and right-hand side at the
first top-level `=`; stops at a top-level `;` before any `=`. -/
def pl_var_scan : List Char → List Char → List Char → List Char → Bool → List Char →
    Option (Bool × List Char × List Char × List Char)
  | [], buf, lhs, op, hit_eq, _delims => some (hit_eq, lhs, op, buf)
  | c :: rest, buf, lhs, op, hit_eq, delims =>
    if c = ')' ∨ c = '}' then pl_var_scan rest (buf ++ [c]) lhs op hit_eq delims.tail
    else if c = '(' ∨ c = '{' then pl_var_scan rest (buf ++ [c]) lhs op hit_eq (c :: delims)
    else if ¬delims.isEmpty then pl_var_scan rest (buf ++ [c]) lhs op hit_eq delims
    else if c = ';' ∧ ¬hit_eq then some (hit_eq, lhs, op, buf)
    else if c = '=' ∧ ¬hit_eq then
      match pl_op_split buf with
      | none => none
      | some p => pl_var_scan rest [] p.1 p.2 true delims
    else pl_var_scan rest (buf ++ [c]) lhs op hit_eq delims

/-- Result of `parse_line` / of processing a logical line. -/
inductive ParseOut where
  | ok (st : State) (vars : Vars)
  | fatal (code : Nat) (msg : String)
  | panicked
  | fuelOut
deriving DecidableEq, Repr

/-- Lift a non-`ok` expansion outcome into the parser's sequencing. -/
def ParseOut.ofExpand (e : ExpandResult) : ParseOut :=
  match e with
  | .ok _ _ => .panicked
  | .fatal c m => .fatal c m
  | .panicked => .panicked
  | .fuelOut => .fuelOut

/-- The `VarOp::Store` arm of `parse_line` (src/main.rs 2460-2500):
note that an existing variable is overwritten by `Var::store` with no
origin or precedence check. -/
def pl_store (ctx : Ctx) (ef : Nat) (st : State) (vars : Vars) (location : Location)
    (targets : Option String) (exportF expand : Bool) (lhsx rhs : String) : ParseOut :=
  let lhs := rustTrim lhsx
  match (if expand then expand_simple_ng ctx ef location vars rhs
         else .ok rhs vars) with
  | .ok rhsx vars =>
    match targets with
    | some tgt =>
      match expand_simple_ng ctx ef location vars tgt with
      | .ok tgtx vars =>
        .ok { st with rules := st.rules ++
          [{ location := location, targets := splitWhitespace tgtx,
             data := .Var lhs (.Store expand) rhsx }] } vars
      | e => .ofExpand e
    | none =>
      match varsGet vars lhs with
      | some _ => .ok st (varsUpdate vars lhs (fun v => v.store (rustTrim rhsx)))
      | none =>
        .ok st (varsInsert vars lhs
          (Var.new (if expand then .Simple else .Recursive) .File (some location)
            lhs (rustTrim rhsx) exportF))
  | e => .ofExpand e

/-- The `VarOp::StoreIfUndef` arm of `parse_line` (src/main.rs
2502-2532): the right-hand side is stored unexpanded, and only when the
variable is not yet defined. -/
def pl_store_if_undef (ctx : Ctx) (ef : Nat) (st : State) (vars : Vars) (location : Location)
    (targets : Option String) (exportF : Bool) (lhsx rhs : String) : ParseOut :=
  let lhs := rustTrim lhsx
  match targets with
  | some tgt =>
    match expand_simple_ng ctx ef location vars tgt with
    | .ok tgtx vars =>
      .ok { st with rules := st.rules ++
        [{ location := location, targets := splitWhitespace tgtx,
           data := .Var lhs .StoreIfUndef rhs }] } vars
    | e => .ofExpand e
  | none =>
    match varsGet vars lhs with
    | some _ => .ok st vars
    | none =>
      .ok st (varsInsert vars lhs
        (Var.new .Recursive .File (some location) lhs (rustTrim rhs) exportF))

/-- The `VarOp::Append` arm of `parse_line` (src/main.rs 2534-2571):
NOTE the source expands the right-hand side when the existing flavor is
`Recursive` and stores it raw otherwise — the reverse of the claimed
semantics. -/
def pl_append (ctx : Ctx) (ef : Nat) (st : State) (vars : Vars) (location : Location)
    (targets : Option String) (exportF : Bool) (lhsx rhs : String) : ParseOut :=
  let lhs := rustTrim lhsx
  let flavor := (varsGet vars lhs).map Var.flavor
  match (if flavor = some .Recursive then expand_simple_ng ctx ef location vars rhs
         else .ok rhs vars) with
  | .ok rhsx vars =>
    match targets with
    | some tgt =>
      match expand_simple_ng ctx ef location vars tgt with
      | .ok tgtx vars =>
        .ok { st with rules := st.rules ++
          [{ location := location, targets := splitWhitespace tgtx,
             data := .Var lhs .Append rhsx }] } vars
      | e => .ofExpand e
    | none =>
      match varsGet vars lhs with
      | some _ => .ok st (varsUpdate vars lhs (fun v => v.append (rustTrim rhsx)))
      | none =>
        .ok st (varsInsert vars lhs
          (Var.new .Recursive .File (some location) lhs (rustTrim rhsx) exportF))
  | e => .ofExpand e

/-- The rule-line branch of `parse_line` (src/main.rs 2575-2603): split
an inline recipe at the first `;`, expand prerequisites and targets, and
push the rule fragments (prerequisite text is pushed already expanded
here; targets are split on whitespace). -/
def pl_rule (ctx : Ctx) (ef : Nat) (st : State) (vars : Vars) (location : Location)
    (targets : String) (double_colon : Bool) (src : List Char) : ParseOut :=
  let st := { st with in_rule := true }
  let pr :=
    match splitOnceStr ";" src.asString with
    | some p => (p.1, some p.2)
    | none => (src.asString, none)
  match expand_simple_ng ctx ef location vars pr.1 with
  | .ok prereqsx vars =>
    match expand_simple_ng ctx ef location vars targets with
    | .ok tgtx vars =>
      let tgts := splitWhitespace tgtx
      let st := { st with rules := st.rules ++
        [{ location := location, targets := tgts, data := .Prereq double_colon prereqsx }] }
      match pr.2 with
      | some r =>
        .ok { st with rules := st.rules ++
          [{ location := location, targets := tgts, data := .Recipie r }] } vars
      | none => .ok st vars
    | e => .ofExpand e
  | e => .ofExpand e

/-- `parse_line` (src/main.rs 2252-2624). -/
def parse_line (ctx : Ctx) (ef : Nat) (st : State) (vars : Vars) (location : Location)
    (src : String) : ParseOut :=
  let st := { st with in_rule := false }
  let rs := pl_rule_scan src.data []
  let split :=
    if rs.1 then
      match splitOnceStr (if rs.2 then "::" else ":") src with
      | some p => some (some p.1, p.2)
      | none => none
    else some (none, src)
  match split with
  | none => .panicked
  | some (targets, src) =>
    if targets = none ∧ startsWithStr (rustTrim src) "unexport " then
      match expand_simple_ng ctx ef location vars ((rustTrim src).data.drop 9).asString with
      | .ok wsx vars =>
        .ok st ((splitWhitespace wsx).foldl (fun vs w => varsUpdate vs w Var.unexport) vars)
      | e => .ofExpand e
    else if targets = none ∧ startsWithStr (rustTrim src) "unexport" then
      .ok st (vars.map (fun p =>
        if ¬p.2.exported ∧ ¬(p.2.origin = .Env) then (p.1, p.2.unexport) else p))
    else
      let ex_src :=
        if startsWithStr (rustTrim src) "export " then (true, ((rustTrim src).data.drop 7))
        else if startsWithStr (rustTrim src) "export" then (true, ([] : List Char))
        else (false, src.data)
      match pl_var_scan ex_src.2 [] [] [] false [] with
      | none => .panicked
      | some (is_var, lhs, op, rhs) =>
        if is_var then
          let var_op : Option VarOp :=
            if op = [':', ':', '='] ∨ op = [':', '='] then some (.Store true)
            else if op = ['='] then some (.Store false)
            else if op = ['+', '='] then some .Append
            else if op = ['!', '='] then some .Shell
            else if op = ['?', '='] then some .StoreIfUndef
            else none
          match var_op with
          | none => .panicked
          | some vop =>
            match expand_simple_ng ctx ef location vars lhs.asString with
            | .ok lhsx vars =>
              match vop with
              | .Store expand =>
                pl_store ctx ef st vars location targets ex_src.1 expand lhsx rhs.asString
              | .StoreIfUndef =>
                pl_store_if_undef ctx ef st vars location targets ex_src.1 lhsx rhs.asString
              | .Append =>
                pl_append ctx ef st vars location targets ex_src.1 lhsx rhs.asString
              | .Shell => .panicked
            | e => .ofExpand e
        else
          match targets with
          | some tgt => pl_rule ctx ef st vars location tgt rs.2 ex_src.2
          | none =>
            if ex_src.1 then
              match expand_simple_ng ctx ef location vars ex_src.2.asString with
              | .ok wsx vars =>
                let ws := splitWhitespace wsx
                if ws.isEmpty then
                  .ok st (vars.map (fun p =>
                    if ¬p.2.unexported then (p.1, p.2.export) else p))
                else
                  .ok st (ws.foldl (fun vs w => varsUpdate vs w Var.export) vars)
              | e => .ofExpand e
            else
              match expand_simple_ng ctx ef location vars ex_src.2.asString with
              | .ok _ vars => .ok st vars
              | e => .ofExpand e

/-- The store of the C2 scenario: `X=1` given on the command line
(`Var::new(Simple, CmdLine, …)`, src/main.rs 291-295). -/
def vars_c2 : Vars := [("X", Var.new .Simple .CmdLine none "X" "1" false)]

/-- Claim C2: parsing the file line `X := 2` after the command-line
definition `X=1` overwrites the command-line value — `Var::store`
performs no origin/precedence check (src/main.rs 642-645, 2480-2481) —
so `$(X)` then evaluates to `2`, not to the claimed `1`. -/
theorem claim_c2_eval :
    parse_line ctx0 3 State.default vars_c2 loc0 "X := 2"
      = .ok State.default [("X", Var.new .Simple .CmdLine none "X" "2" false)]
    ∧ expand_simple_ng ctx0 3 loc0 [("X", Var.new .Simple .CmdLine none "X" "2" false)] "$(X)"
      = .ok "2" [("X", Var.new .Simple .CmdLine none "X" "2" false)]
    ∧ ¬(("2" : String) = "1") :=
  ⟨by decide, by decide, by decide⟩

/-- The store of the C3 scenarios: a Recursive variable `A`, a Simple
variable `S`, and the Simple variable `X` their appends reference. -/
def vars_c3 : Vars :=
  [("A", Var.new .Recursive .File none "A" "old" false),
   ("S", Var.new .Simple .File none "S" "a" false),
   ("X", Var.new .Simple .File none "X" "1" false)]

/-- Claim C3: `+=` behaves exactly opposite to the claim on existing
variables.  Appending `$(X)` to the Recursive variable `A` stores the
expanded text `old 1` (not the claimed unexpanded `old $(X)`); appending
to the Simple variable `S` stores the raw text `a $(X)` (not the claimed
expansion `a 1`); only the third part of the claim holds: appending to
an undefined variable creates a Recursive one holding the right-hand
side. -/
theorem claim_c3_eval :
    (parse_line ctx0 3 State.default vars_c3 loc0 "A += $(X)"
       = .ok State.default
          [("A", Var.new .Recursive .File none "A" "old 1" false),
           ("S", Var.new .Simple .File none "S" "a" false),
           ("X", Var.new .Simple .File none "X" "1" false)]
     ∧ ¬(("old 1" : String) = "old $(X)"))
    ∧ (parse_line ctx0 3 State.default vars_c3 loc0 "S += $(X)"
       = .ok State.default
          [("A", Var.new .Recursive .File none "A" "old" false),
           ("S", Var.new .Simple .File none "S" "a $(X)" false),
           ("X", Var.new .Simple .File none "X" "1" false)]
     ∧ ¬(("a $(X)" : String) = "a 1"))
    ∧ parse_line ctx0 3 State.default vars_c3 loc0 "N += x"
       = .ok State.default (vars_c3 ++ [("N", Var.new .Recursive .File (some loc0) "N" "x" false)]) :=
  ⟨⟨by decide, by decide⟩, ⟨by decide, by decide⟩, by decide⟩

/-! ## The logical line reader `read_logical_line` (src/main.rs 374-478) -/

/-- The per-physical-line char loop of `read_logical_line` (src/main.rs
411-467).  State: accumulated logical line, `$(`/`${` depth, single- and
double-quote flags, and the continuation flag.  `none` models the
`unwrap` panic on a quoted backslash ending the input.  Note the `#`
comment handling of this loop is commented out in the source: `#` is an
ordinary char here. -/
def rll_chars : List Char → List Char → Int → Bool → Bool → Bool → Option (List Char × Bool)
  | [], line, _depth, _q, _dq, needs => some (line, needs)
  | c :: rest, line, depth, q, dq, needs =>
    if ¬q ∧ ¬dq ∧ c = '$' then
      match rest with
      | '(' :: r => rll_chars r (line ++ ['$', '(']) (depth + 1) q dq needs
      | '{' :: r => rll_chars r (line ++ ['$', '{']) (depth + 1) q dq needs
      | [] => some (line ++ ['$'], needs)
      | c2 :: r => rll_chars (c2 :: r) (line ++ ['$']) depth q dq needs
    else if ¬q ∧ ¬dq ∧ (c = '}' ∨ c = ')') then
      rll_chars rest (line ++ [c]) (depth - 1) q dq needs
    else if ¬dq ∧ c = '\'' then
      rll_chars rest (line ++ ['\'']) depth (!q) dq needs
    else if ¬q ∧ c = '"' then
      rll_chars rest (line ++ ['"']) depth q (!dq) needs
    else if (q ∨ dq) ∧ c = '\\' then
      match rest with
      | [] => none
      | c2 :: r => rll_chars r (line ++ ['\\', c2]) depth q dq (needs ∨ c2 = '\n')
    else if ¬q ∧ ¬dq ∧ c = '\\' then
      match rest with
      | '\\' :: r => rll_chars r (line ++ ['\\']) depth q dq needs
      | '\n' :: r => rll_chars r line depth q dq true
      | _ :: r => rll_chars r line depth q dq needs
      | [] => some (line, needs)
    else rll_chars rest (line ++ [c]) depth q dq needs

/-- The `while needs_line` loop of `read_logical_line` (src/main.rs
382-471), one physical line per iteration.  A physical line starting
with `#` in column 0 makes the loop exit with the line accumulated so
far (the `continue` runs with `needs_line` already false).  Result:
logical line, remaining physical lines, lines consumed, `eof`. -/
def rll_loop : List String → List Char → Bool → Nat → Option (String × List String × Nat × Bool)
  | [], line, _just_spaces, line_no => some (line.asString, [], line_no, true)
  | l :: rest, line, just_spaces, line_no =>
    let line_no := line_no + 1
    if startsWithStr l "#" then some (line.asString, rest, line_no, false)
    else
      let chars := if line.isEmpty then l.data else (rustTrim l).data
      let chars := match chars with
        | '﻿' :: r => r
        | r => r
      let chars := if just_spaces then chars.dropWhile (fun c => c = ' ') else chars
      match rll_chars chars line 0 false false false with
      | none => none
      | some (line', needs) =>
        if needs then rll_loop rest line' false line_no
        else some (line'.asString, rest, line_no, false)

/-- `read_logical_line` (src/main.rs 374-478): produce one logical line
from the file's remaining physical lines (each carrying its trailing
newline, as `BufReader::read_line` delivers them). -/
def read_logical_line (lines : List String) : Option (String × List String × Nat × Bool) :=
  rll_loop lines [] true 0

/-- Claim C9: a `#` not in column 0, outside groups and quotes, does
NOT start a comment — the produced logical line retains the `#` and
everything after it (the comment-discard code of the char loop is
commented out, src/main.rs 413 and 462-464, contradicting the
function's own doc comment `discard after comment`).  Only a physical
line whose column 0 is `#` is dropped. -/
theorem claim_c9_eval :
    read_logical_line ["foo # bar\n"] = some ("foo # bar\n", [], 1, false)
    ∧ containsStr "foo # bar\n" "# bar" = true
    ∧ read_logical_line ["# dropped\n"] = some ("", [], 1, false) :=
  ⟨by decide, by decide, by decide⟩

/-! ## The target scheduler `process_target` (src/main.rs 1071-1330) and
the target loop of `state_machine` (src/main.rs 535-568) -/

/-- Result of `process_target`: `ok res st cmds` is an ordinary return
(`res = none` is the source's `None`, "no rule to make this"; `cmds`
the shell commands executed under way), `fatalExit` a
`std::process::exit`, `panicked` a Rust panic, `expFuelOut` exhausted
expansion fuel, and `fuelOut` exhausted scheduler fuel (the modelling
artefact bounded away by `claim_c10`). -/
inductive PTOut where
  | ok (res : Option (Bool × Bool)) (st : State) (cmds : List String)
  | fatalExit (code : Nat) (msg : String)
  | panicked
  | expFuelOut
  | fuelOut
deriving DecidableEq, Repr

/-- Insert into the `HashMap<String, String>` of `TargetRule.vars`. -/
def strInsert (m : List (String × String)) (k v : String) : List (String × String) :=
  match m with
  | [] => [(k, v)]
  | (k', v') :: rest => if k' = k then (k, v) :: rest else (k', v') :: strInsert rest k v

/-- The per-target accumulator of the rule loop (`TargetRule` plus the
loop-local flags of src/main.rs 1096-1160). -/
structure PTLoop where
  target_vars : List (String × String)
  prerequisites : List String
  prereqs_var : Var
  recipies : List (Location × String)
  was_prereq : Bool
  was_recipies : Bool
  found_rules : Bool
  was_single : Bool
  was_double : Bool
deriving DecidableEq, Repr

/-- The initial accumulator (src/main.rs 1096-1115). -/
def PTLoop.init : PTLoop :=
  { target_vars := [], prerequisites := [],
    prereqs_var := Var.new .Simple .Automatic none "?" "" false,
    recipies := [], was_prereq := false, was_recipies := false,
    found_rules := false, was_single := false, was_double := false }

/-- Result of the rule loop. -/
inductive PTLoopOut where
  | ok (ls : PTLoop)
  | fatal (code : Nat) (msg : String)
  | panicked
deriving DecidableEq, Repr

/-- The `for rule in &state.rules` loop of `process_target` (src/main.rs
1117-1160): gather target-scoped variables, prerequisites and recipes
for `name`; mixing `:` and `::` fragments is `fatal_double_and_single`;
a recipe block separated from an earlier one by a `Var` fragment
panics, and a later single-colon recipe block replaces the earlier. -/
def pt_rules_loop (name : String) : PTLoop → List Rule → PTLoopOut
  | ls, [] => .ok ls
  | ls, rule :: rest =>
    if name ∈ rule.targets then
      let ls := { ls with found_rules := true }
      match rule.data with
      | .Var a _op b =>
        pt_rules_loop name { ls with
            target_vars := (strInsert ls.target_vars a b)
            was_prereq := false
            was_recipies := false } rest
      | .Prereq a prereqs =>
        if a ∧ ls.was_single then .fatal 2 (msg_double_and_single rule.location name)
        else if ¬a ∧ ls.was_double then .fatal 2 (msg_double_and_single rule.location name)
        else
          let ls := if a then { ls with was_double := true } else { ls with was_single := true }
          pt_rules_loop name { ls with
            prereqs_var := (ls.prereqs_var.append prereqs)
            prerequisites := (ls.prerequisites ++ splitWhitespace prereqs)
            was_prereq := true
            was_recipies := false } rest
      | .Recipie r =>
        if ¬ls.recipies.isEmpty ∧ ¬ls.was_recipies then
          if ¬ls.was_prereq then .panicked
          else if ¬ls.was_double then
            pt_rules_loop name { ls with
              recipies := ([(rule.location, r)])
              was_recipies := true
              was_prereq := false } rest
          else
            pt_rules_loop name { ls with
              recipies := (ls.recipies ++ [(rule.location, r)])
              was_recipies := true
              was_prereq := false } rest
        else
          pt_rules_loop name { ls with
            recipies := (ls.recipies ++ [(rule.location, r)])
            was_recipies := true
            was_prereq := false } rest
    else pt_rules_loop name ls rest

/-- Result of the prerequisite loop. -/
inductive PTPrereqOut where
  | ok (st : State) (done : Bool) (cmds : List String)
  | err (e : PTOut)
deriving DecidableEq, Repr

/-- The `for t in &target_rule.prerequisites` loop of `process_target`
(src/main.rs 1166-1176), with the recursive call abstracted as `pt`: a
prerequisite for which `pt` reports "no rule" and which is not phony is
the fatal `exit(130)`. -/
def pt_prereqs (pt : State → Vars → String → PTOut) (phony : List String)
    (basename parent : String) :
    State → Vars → Bool → List String → List String → PTPrereqOut
  | st, _vars, done, cmds, [] => .ok st done cmds
  | st, vars, done, cmds, t :: rest =>
    match pt st vars t with
    | .ok res st' cmds' =>
      match res with
      | some p => pt_prereqs pt phony basename parent st' vars (done ∨ p.1) (cmds ++ cmds') rest
      | none =>
        if ¬(rustTrim t ∈ phony) then
          .err (.fatalExit 130 (basename ++ ": *** No rule to make target '" ++ t
            ++ "', needed by '" ++ parent ++ "'. Stop"))
        else pt_prereqs pt phony basename parent st' vars done (cmds ++ cmds') rest
    | e => .err e

/-- The up-to-date decision of `process_target` (src/main.rs 1178-1202):
returns `(needs_updating, found_rules)` — the loop also sets
`found_rules` when a prerequisite is phony. -/
def pt_needs_updating (ctx : Ctx) (st : State) (name : String) (prereqs : List String)
    (found_rules : Bool) : Bool × Bool :=
  if name ∈ st.phony then (true, found_rules)
  else
    match ctx.mtime name with
    | some time =>
      prereqs.foldl (fun acc p =>
        if p ∈ st.phony then (true, true)
        else
          match ctx.mtime p with
          | some ptime => (acc.1 ∨ decide (time < ptime), acc.2)
          | none => (true, acc.2)) (false, found_rules)
    | none => (true, found_rules)

/-- The error outcomes the non-recursive parts of `process_target` can
produce (a fatal exit, a panic, or exhausted expansion fuel — never
exhausted scheduler fuel, which only the prerequisite recursion can
report). -/
inductive PTErr where
  | fatalExit (code : Nat) (msg : String)
  | panicked
  | expFuelOut
deriving DecidableEq, Repr

/-- Embed a helper error into `PTOut`. -/
def PTErr.toPTOut : PTErr → PTOut
  | .fatalExit c m => .fatalExit c m
  | .panicked => .panicked
  | .expFuelOut => .expFuelOut

theorem PTErr.toPTOut_spec (e : PTErr) :
    e.toPTOut ≠ .fuelOut ∧ ∀ r s c, e.toPTOut ≠ .ok r s c := by
  cases e <;> exact ⟨by simp [PTErr.toPTOut], by intro r s c; simp [PTErr.toPTOut]⟩

/-- The recipe-expansion pass of `process_target` (src/main.rs
1211-1221): expand every recipe with the current store, keep the
trimmed non-empty ones. -/
def pt_expand_recipes (ctx : Ctx) (ef : Nat) :
    Vars → List (Location × String) → List (Location × String) →
    Except PTErr (List (Location × String) × Vars)
  | vars, acc, [] => .ok (acc, vars)
  | vars, acc, (loc, r) :: rest =>
    match expand_simple_ng ctx ef loc vars r with
    | .ok cmd vars =>
      let cmd := rustTrim cmd
      if cmd = "" then pt_expand_recipes ctx ef vars acc rest
      else pt_expand_recipes ctx ef vars (acc ++ [(loc, cmd)]) rest
    | .fatal c m => .error (.fatalExit c m)
    | .panicked => .error .panicked
    | .fuelOut => .error .expFuelOut

/-- One step of the recipe-execution loop (src/main.rs 1225-1326):
strip the `-`/`@` modifiers, evaluate `SHELL` and `.SHELLFLAGS`, run
the command, and on a non-zero status either ignore, report, or abort
with exit code 2. -/
def pt_exec_one (ctx : Ctx) (ef : Nat) (stf : State) (name : String) (vars : Vars)
    (loc : Location) (cmd0 : String) : Except PTErr (Vars × String) :=
  let p1 :=
    if startsWithStr cmd0 "-" then ((cmd0.data.drop 1).asString, true)
    else (cmd0, stf.ignore_errors)
  let silent0 := decide (name ∈ stf.silent_targets)
  let p2 :=
    if startsWithStr p1.1 "@" then ((p1.1.data.drop 1).asString, true)
    else (p1.1, silent0)
  let cmd := p2.1
  -- echo of the command is terminal output (external)
  match (match varsGet vars "SHELL" with
         | some v => Var.eval (expand_level ctx ef) loc vars v
         | none => .ok "" vars) with
  | .ok shell vars =>
    match (match varsGet vars ".SHELLFLAGS" with
           | some v => Var.eval (expand_level ctx ef) loc vars v
           | none => .ok "" vars) with
    | .ok shell_flags vars =>
      match (splitWhitespace (rustTrim cmd)).head? with
      | none => .error .panicked
      | some _cmd_name =>
        let status := ctx.runCmd shell shell_flags cmd
        if ¬(status = 0) then
          if p1.2 then .ok (vars, cmd)
          else
            if ¬stf.keep_going then
              .error (.fatalExit 2 (stf.basename ++ ": *** [" ++ loc.file_name ++ ":"
                ++ toString loc.line ++ ": " ++ name ++ "] Error " ++ toString status))
            else .ok (vars, cmd)
        else .ok (vars, cmd)
    | .fatal c m => .error (PTErr.fatalExit c m)
    | .panicked => .error PTErr.panicked
    | .fuelOut => .error PTErr.expFuelOut
  | .fatal c m => .error (PTErr.fatalExit c m)
  | .panicked => .error PTErr.panicked
  | .fuelOut => .error PTErr.expFuelOut

/-- The recipe-execution loop (src/main.rs 1225-1326). -/
def pt_exec_recipes (ctx : Ctx) (ef : Nat) (stf : State) (name : String) :
    Vars → List String → List (Location × String) → Except PTErr (Vars × List String)
  | vars, cmds, [] => .ok (vars, cmds)
  | vars, cmds, (loc, cmd) :: rest =>
    match pt_exec_one ctx ef stf name vars loc cmd with
    | .ok (vars, c) => pt_exec_recipes ctx ef stf name vars (cmds ++ [c]) rest
    | .error e => .error e

/-- The tail of `process_target` after the prerequisite recursion
(src/main.rs 1178-1329): decide `needs_updating`, and when remaking is
required expand and execute the recipes. -/
def pt_finish (ctx : Ctx) (ef : Nat) (st : State) (vars : Vars) (name : String)
    (ls : PTLoop) (done : Bool) (cmds : List String) : PTOut :=
  let nf := pt_needs_updating ctx st name ls.prerequisites ls.found_rules
  if ¬nf.2 ∧ nf.1 then .ok none st cmds
  else if nf.1 then
    match pt_expand_recipes ctx ef vars [] ls.recipies with
    | .error e => e.toPTOut
    | .ok (expanded, vars) =>
      let has_recipies := ¬expanded.isEmpty
      match pt_exec_recipes ctx ef st name vars cmds expanded with
      | .error e => e.toPTOut
      | .ok (_vars, cmds) =>
        .ok (some (done ∨ has_recipies, has_recipies)) st cmds
  else .ok (some (done, false)) st cmds

/-- Dispatch on the outcome of the prerequisite loop (src/main.rs
1166-1177): an error propagates, success continues into the
needs-updating/recipe tail with the updated state. -/
def pt_after (ctx : Ctx) (ef : Nat) (vars : Vars) (name : String) (ls : PTLoop) :
    PTPrereqOut → PTOut
  | .err e => e
  | .ok st done cmds => pt_finish ctx ef st vars name ls done cmds

/-- `process_target` (src/main.rs 1071-1330), fuel-indexed: the `fuel`
parameter bounds only the depth of the prerequisite recursion (the real
function's recursion); `ef` is the expansion fuel used by every
embedded `expand_simple_ng`. -/
def process_target (ctx : Ctx) (ef : Nat) : Nat → State → Vars → String → PTOut
  | 0, _, _, _ => .fuelOut
  | fuel + 1, st, vars, name =>
    let vars := varsInsert vars "@" (Var.new .Simple .Automatic none "@" name false)
    if name ∈ st.processed then .ok (some (false, false)) st []
    else
      let st := { st with processed := st.processed ++ [name] }
      match pt_rules_loop name PTLoop.init st.rules with
      | .fatal c m => .fatalExit c m
      | .panicked => .panicked
      | .ok ls =>
        let vars := varsInsert vars "?" ls.prereqs_var
        let vars := varsInsert vars "<" { ls.prereqs_var with name := "<" }
        pt_after ctx ef vars name ls
          (pt_prereqs (process_target ctx ef fuel) st.phony st.basename name
            st vars false [] ls.prerequisites)

/-- Result of the target loop of `state_machine`: `finished` is the
`Ok(())` return (process exit code 0). -/
inductive SMOut where
  | finished (log : List String) (st : State) (cmds : List String)
  | exited (code : Nat) (msg : String) (log : List String)
  | panicked
  | expFuelOut
  | schedFuelOut
deriving DecidableEq, Repr

/-- The process exit code an `SMOut` stands for (`main` returns
`Ok(())` → 0; a fatal carries its own code); `none` for the modelling
artefacts. -/
def SMOut.exitCode : SMOut → Option Nat
  | .finished _ _ _ => some 0
  | .exited c _ _ => some c
  | _ => none

/-- The `for t in targets_to_make` loop of `state_machine` (src/main.rs
548-565): each iteration clones the original store, processes the
target, logs the status message — and when `process_target` reports "no
rule" it logs `basename: *** No rule to make target 't'.  Stop.` and
CONTINUES; the loop always ends in `Ok(())`. -/
def state_machine_loop (ctx : Ctx) (ef pf : Nat) (vars : Vars) :
    State → List String → List String → List String → SMOut
  | st, log, cmds, [] => .finished log st cmds
  | st, log, cmds, t :: rest =>
    match process_target ctx ef pf st vars t with
    | .ok r st' cmds' =>
      match r with
      | some p =>
        let log :=
          if ¬st'.silent ∧ ¬p.1 then
            if t ∈ st'.phony ∨ ¬p.2 then
              log ++ [st'.basename ++ ": Nothing to be done for '" ++ t ++ "'."]
            else log ++ [st'.basename ++ ": '" ++ t ++ "' is up to date."]
          else log
        state_machine_loop ctx ef pf vars st' log (cmds ++ cmds') rest
      | none =>
        state_machine_loop ctx ef pf vars st'
          (log ++ [st'.basename ++ ": *** No rule to make target '" ++ t ++ "'.  Stop."])
          (cmds ++ cmds') rest
    | .fatalExit c m => .exited c m log
    | .panicked => .panicked
    | .expFuelOut => .expFuelOut
    | .fuelOut => .schedFuelOut

/-! ## Claim C7: mixing `:` and `::` for one target is fatal -/

/-- `rs` contains a single-colon prerequisite fragment for `name`. -/
def hasSingleFor (name : String) (rs : List Rule) : Prop :=
  ∃ r ∈ rs, name ∈ r.targets ∧ ∃ txt, r.data = RuleData.Prereq false txt

/-- `rs` contains a double-colon prerequisite fragment for `name`. -/
def hasDoubleFor (name : String) (rs : List Rule) : Prop :=
  ∃ r ∈ rs, name ∈ r.targets ∧ ∃ txt, r.data = RuleData.Prereq true txt

theorem hasSingleFor_tail {name : String} {r : Rule} {rs : List Rule}
    (h : hasSingleFor name (r :: rs))
    (hhead : ¬(name ∈ r.targets ∧ ∃ txt, r.data = RuleData.Prereq false txt)) :
    hasSingleFor name rs := by
  obtain ⟨r', hr', hmem', hw⟩ := h
  rcases List.mem_cons.mp hr' with h | h
  · subst h; exact absurd ⟨hmem', hw⟩ hhead
  · exact ⟨r', h, hmem', hw⟩

theorem hasDoubleFor_tail {name : String} {r : Rule} {rs : List Rule}
    (h : hasDoubleFor name (r :: rs))
    (hhead : ¬(name ∈ r.targets ∧ ∃ txt, r.data = RuleData.Prereq true txt)) :
    hasDoubleFor name rs := by
  obtain ⟨r', hr', hmem', hw⟩ := h
  rcases List.mem_cons.mp hr' with h | h
  · subst h; exact absurd ⟨hmem', hw⟩ hhead
  · exact ⟨r', h, hmem', hw⟩

theorem pt_rules_loop_mixed (name : String) : ∀ (rs : List Rule) (ls : PTLoop),
    (∀ r ∈ rs, name ∈ r.targets → ∃ dc txt, r.data = RuleData.Prereq dc txt) →
    ((ls.was_single = true ∧ hasDoubleFor name rs)
      ∨ (ls.was_double = true ∧ hasSingleFor name rs)
      ∨ (hasSingleFor name rs ∧ hasDoubleFor name rs)) →
    ∃ loc, pt_rules_loop name ls rs = .fatal 2 (msg_double_and_single loc name) := by
  intro rs
  induction rs with
  | nil =>
    intro ls _ hdis
    exfalso
    rcases hdis with ⟨_, r, hr, _⟩ | ⟨_, r, hr, _⟩ | ⟨⟨r, hr, _⟩, _⟩ <;> simp at hr
  | cons r rs ih =>
    intro ls hall hdis
    have hall' : ∀ r ∈ rs, name ∈ r.targets → ∃ dc txt, r.data = RuleData.Prereq dc txt :=
      fun r hr => hall r (by simp [hr])
    by_cases hmem : name ∈ r.targets
    · obtain ⟨dc, txt, hdata⟩ := hall r (by simp) hmem
      rw [pt_rules_loop, if_pos hmem, hdata]
      cases dc
      · -- single-colon fragment
        by_cases hwd : ls.was_double = true
        · exact ⟨r.location, by simp [hwd]⟩
        · have hD : hasDoubleFor name rs := by
            rcases hdis with ⟨_, hd⟩ | ⟨hwd', _⟩ | ⟨_, hd⟩
            · exact hasDoubleFor_tail hd (by
                intro ⟨_, txt', hdata'⟩
                rw [hdata] at hdata'
                simp at hdata')
            · exact absurd hwd' hwd
            · exact hasDoubleFor_tail hd (by
                intro ⟨_, txt', hdata'⟩
                rw [hdata] at hdata'
                simp at hdata')
          simp only [true_and, false_and, and_false, if_false, reduceIte, Bool.not_eq_true,
            hwd, ite_false, Bool.false_eq_true]
          exact ih _ hall' (Or.inl ⟨by simp, hD⟩)
      · -- double-colon fragment
        by_cases hws : ls.was_single = true
        · exact ⟨r.location, by simp [hws]⟩
        · have hS : hasSingleFor name rs := by
            rcases hdis with ⟨hws', _⟩ | ⟨_, hs⟩ | ⟨hs, _⟩
            · exact absurd hws' hws
            · exact hasSingleFor_tail hs (by
                intro ⟨_, txt', hdata'⟩
                rw [hdata] at hdata'
                simp at hdata')
            · exact hasSingleFor_tail hs (by
                intro ⟨_, txt', hdata'⟩
                rw [hdata] at hdata'
                simp at hdata')
          simp only [true_and, false_and, and_false, if_false, reduceIte, Bool.not_eq_true,
            hws, ite_false, Bool.false_eq_true]
          exact ih _ hall' (Or.inr (Or.inl ⟨by simp, hS⟩))
    · rw [pt_rules_loop, if_neg hmem]
      refine ih ls hall' ?_
      have hh : ¬(name ∈ r.targets ∧ ∃ txt, r.data = RuleData.Prereq false txt) :=
        fun h => hmem h.1
      have hh' : ¬(name ∈ r.targets ∧ ∃ txt, r.data = RuleData.Prereq true txt) :=
        fun h => hmem h.1
      rcases hdis with ⟨hw, hd⟩ | ⟨hw, hs⟩ | ⟨hs, hd⟩
      · exact Or.inl ⟨hw, hasDoubleFor_tail hd hh'⟩
      · exact Or.inr (Or.inl ⟨hw, hasSingleFor_tail hs hh⟩)
      · exact Or.inr (Or.inr ⟨hasSingleFor_tail hs hh, hasDoubleFor_tail hd hh'⟩)

/-- Claim C7: when the rule fragments for a target mix single-colon and
double-colon prerequisite forms (and that target's fragments are
prerequisite fragments), processing the target is a fatal error with
exit code 2 whose message is exactly
`file:line: *** target file 'T' has both : and :: entries.  Stop`
(see `msg_double_and_single`). -/
theorem claim_c7 (ctx : Ctx) (ef f : Nat) (st : State) (vars : Vars) (name : String)
    (hnp : ¬ name ∈ st.processed)
    (hall : ∀ r ∈ st.rules, name ∈ r.targets → ∃ dc txt, r.data = RuleData.Prereq dc txt)
    (hsingle : hasSingleFor name st.rules)
    (hdouble : hasDoubleFor name st.rules) :
    ∃ loc, process_target ctx ef (f + 1) st vars name
      = .fatalExit 2 (msg_double_and_single loc name) := by
  obtain ⟨loc, hL⟩ := pt_rules_loop_mixed name st.rules PTLoop.init hall
    (Or.inr (Or.inr ⟨hsingle, hdouble⟩))
  refine ⟨loc, ?_⟩
  rw [process_target, if_neg hnp]
  simp only [hL]

/-- Claim C7 witness: the concrete state with `t: a` and `t:: b`. -/
def stC7 : State := { State.default with basename := "make", rules :=
  [⟨⟨"Makefile", 2⟩, ["t"], .Prereq false "a"⟩,
   ⟨⟨"Makefile", 5⟩, ["t"], .Prereq true "b"⟩] }

/-- Claim C7 witness: for the concrete mixed rules of `stC7`, processing
`t` is the fatal with the exact message text. -/
theorem claim_c7_witness :
    ∃ loc, process_target ctx0 2 5 stC7 [] "t"
      = .fatalExit 2 (msg_double_and_single loc "t") :=
  claim_c7 ctx0 2 4 stC7 [] "t" (by decide)
    (by
      intro r hr _hmem
      simp only [stC7, State.default, List.mem_cons, List.not_mem_nil, or_false] at hr
      rcases hr with rfl | rfl
      · exact ⟨false, "a", rfl⟩
      · exact ⟨true, "b", rfl⟩)
    ⟨⟨⟨"Makefile", 2⟩, ["t"], .Prereq false "a"⟩, by simp [stC7, State.default], by decide, "a", rfl⟩
    ⟨⟨⟨"Makefile", 5⟩, ["t"], .Prereq true "b"⟩, by simp [stC7, State.default], by decide, "b", rfl⟩

/-! ## Claim C8: a requested target with no rule and no file -/

theorem pt_rules_loop_none (name : String) : ∀ (rs : List Rule) (ls : PTLoop),
    (∀ r ∈ rs, ¬ name ∈ r.targets) → pt_rules_loop name ls rs = .ok ls := by
  intro rs
  induction rs with
  | nil => intro ls _; rfl
  | cons r rs ih =>
    intro ls h
    rw [pt_rules_loop, if_neg (h r (by simp))]
    exact ih ls (fun r hr => h r (by simp [hr]))

/-- Claim C8 (amended): requesting a target for which no rule fragment
exists and whose file does not exist makes the target loop log exactly
`basename: *** No rule to make target 'T'.  Stop.` and CONTINUE; the
run finishes normally and the process exit code is 0 — not 130.  (Exit
code 130 is produced only inside `process_target` for a missing,
non-phony prerequisite of another target, src/main.rs 1166-1175.) -/
theorem claim_c8_amended (ctx : Ctx) (ef f : Nat) (st : State) (vars : Vars) (t : String)
    (hnr : ∀ r ∈ st.rules, ¬ t ∈ r.targets)
    (hmt : ctx.mtime t = none)
    (hnp : ¬ t ∈ st.processed) :
    state_machine_loop ctx ef (f + 1) vars st [] [] [t]
      = .finished [st.basename ++ ": *** No rule to make target '" ++ t ++ "'.  Stop."]
          { st with processed := st.processed ++ [t] } []
    ∧ (state_machine_loop ctx ef (f + 1) vars st [] [] [t]).exitCode = some 0 := by
  have hnf : pt_needs_updating ctx { st with processed := st.processed ++ [t] } t [] false
      = (true, false) := by
    unfold pt_needs_updating
    by_cases h : t ∈ ({ st with processed := st.processed ++ [t] } : State).phony
    · simp [h]
    · simp [h, hmt]
  have hpt : process_target ctx ef (f + 1) st vars t
      = .ok none { st with processed := st.processed ++ [t] } [] := by
    rw [process_target, if_neg hnp]
    simp only [pt_rules_loop_none t st.rules PTLoop.init hnr]
    simp only [PTLoop.init, pt_prereqs, pt_after, pt_finish, hnf]
    simp
  have h1 : state_machine_loop ctx ef (f + 1) vars st [] [] [t]
      = .finished [st.basename ++ ": *** No rule to make target '" ++ t ++ "'.  Stop."]
          { st with processed := st.processed ++ [t] } [] := by
    rw [state_machine_loop.eq_def]
    simp only [hpt]
    rw [state_machine_loop.eq_def]
    simp
  exact ⟨h1, by rw [h1]; rfl⟩

/-- The concrete state of the C8 scenarios: basename `make`, no rules. -/
def stC8 : State := { State.default with basename := "make" }

/-- Claim C8 counterexample: requesting `foo` with no rule and no file
logs the claimed message but the run finishes with process exit code 0,
not 130 — the loop continues past the message (src/main.rs 548-565) and
`state_machine` returns `Ok(())`. -/
theorem claim_c8_counterexample :
    state_machine_loop ctx0 2 5 [] stC8 [] [] ["foo"]
      = .finished ["make: *** No rule to make target 'foo'.  Stop."]
          { stC8 with processed := ["foo"] } []
    ∧ (state_machine_loop ctx0 2 5 [] stC8 [] [] ["foo"]).exitCode = some 0
    ∧ ¬((some 0 : Option Nat) = some 130) :=
  ⟨by decide, by decide, by decide⟩

/-- Claim C8 witness: the amended statement at the concrete target
`bar` on `stC8`. -/
theorem claim_c8_witness :
    state_machine_loop ctx0 2 3 [] stC8 [] [] ["bar"]
      = .finished [stC8.basename ++ ": *** No rule to make target '" ++ "bar" ++ "'.  Stop."]
          { stC8 with processed := stC8.processed ++ ["bar"] } []
    ∧ (state_machine_loop ctx0 2 3 [] stC8 [] [] ["bar"]).exitCode = some 0 :=
  claim_c8_amended ctx0 2 2 stC8 [] "bar" (by simp [stC8, State.default]) rfl (by decide)


/-! ## Claim C10: memoization and termination of the scheduler -/

/-- Every word that can occur as a prerequisite name under the given
rule list: the whitespace-split words of every `Prereq` fragment
(src/main.rs 1140-1146 is the only place prerequisites are gathered). -/
def allPrereqWords : List Rule → List String
  | [] => []
  | r :: rest =>
    (match r.data with
     | .Prereq _dc txt => splitWhitespace txt
     | _ => []) ++ allPrereqWords rest

/-- The termination measure: how many of the candidate names are not
yet in the processed list. -/
def unprocessedCard (names processed : List String) : Nat :=
  (names.toFinset \ processed.toFinset).card

theorem unprocessedCard_le_length (names processed : List String) :
    unprocessedCard names processed ≤ names.length := by
  unfold unprocessedCard
  exact le_trans (Finset.card_le_card Finset.sdiff_subset) names.toFinset_card_le

theorem unprocessedCard_mono (names : List String) {p q : List String}
    (h : ∀ x ∈ p, x ∈ q) :
    unprocessedCard names q ≤ unprocessedCard names p := by
  unfold unprocessedCard
  apply Finset.card_le_card
  intro x hx
  simp only [Finset.mem_sdiff, List.mem_toFinset] at hx ⊢
  exact ⟨hx.1, fun hc => hx.2 (h x hc)⟩

theorem unprocessedCard_push (names : List String) {processed : List String} {name : String}
    (hmem : name ∈ names) (hnp : ¬ name ∈ processed) :
    unprocessedCard names (processed ++ [name]) < unprocessedCard names processed := by
  unfold unprocessedCard
  apply Finset.card_lt_card
  rw [Finset.ssubset_iff_of_subset]
  · refine ⟨name, ?_, ?_⟩
    · simp only [Finset.mem_sdiff, List.mem_toFinset]
      exact ⟨hmem, hnp⟩
    · simp
  · intro x hx
    simp only [Finset.mem_sdiff, List.mem_toFinset, List.mem_append,
      List.mem_singleton] at hx ⊢
    exact ⟨hx.1, fun hc => hx.2 (Or.inl hc)⟩

/-- The state-evolution invariant of one `process_target` call: the
rule list, phony list and basename are unchanged, the processed list
only grows, and every new entry comes from `names`. -/
def pt_inv (names : List String) (st st2 : State) : Prop :=
  st2.rules = st.rules
  ∧ st2.phony = st.phony
  ∧ st2.basename = st.basename
  ∧ (∀ x ∈ st.processed, x ∈ st2.processed)
  ∧ (∀ x ∈ st2.processed, x ∈ st.processed ∨ x ∈ names)

theorem pt_inv_refl (names : List String) (st : State) : pt_inv names st st :=
  ⟨rfl, rfl, rfl, fun _ h => h, fun _ h => Or.inl h⟩

theorem pt_inv_trans {names : List String} {st st1 st2 : State}
    (h1 : pt_inv names st st1) (h2 : pt_inv names st1 st2) : pt_inv names st st2 := by
  obtain ⟨hr1, hp1, hb1, hg1, hd1⟩ := h1
  obtain ⟨hr2, hp2, hb2, hg2, hd2⟩ := h2
  refine ⟨hr2.trans hr1, hp2.trans hp1, hb2.trans hb1,
    fun x hx => hg2 x (hg1 x hx), ?_⟩
  intro x hx
  rcases hd2 x hx with hx1 | hn
  · exact hd1 x hx1
  · exact Or.inr hn

theorem pt_inv_push {names : List String} (st : State) {name : String}
    (hmem : name ∈ names) :
    pt_inv names st { st with processed := st.processed ++ [name] } := by
  refine ⟨rfl, rfl, rfl, ?_, ?_⟩
  · intro x hx
    simp [hx]
  · intro x hx
    simp only [List.mem_append, List.mem_singleton] at hx
    rcases hx with hx | rfl
    · exact Or.inl hx
    · exact Or.inr hmem

/-- A second call on an already-processed name returns immediately:
nothing done, no recipes, state unchanged (src/main.rs 1090-1094). -/
theorem process_target_memo (ctx : Ctx) (ef f : Nat) (st : State) (vars : Vars)
    {name : String} (h : name ∈ st.processed) :
    process_target ctx ef (f + 1) st vars name = .ok (some (false, false)) st [] := by
  rw [process_target]
  simp [h]

/-- Every prerequisite gathered by the rule loop is a word of some
`Prereq` fragment of the scanned rules (plus whatever the accumulator
already held). -/
theorem pt_rules_loop_prereqs (name : String) :
    ∀ (rs : List Rule) (ls ls2 : PTLoop),
      pt_rules_loop name ls rs = .ok ls2 →
      ∀ t ∈ ls2.prerequisites, t ∈ ls.prerequisites ∨ t ∈ allPrereqWords rs := by
  intro rs
  induction rs with
  | nil =>
    intro ls ls2 h t ht
    rw [pt_rules_loop] at h
    injection h with h
    subst h
    exact Or.inl ht
  | cons r rest ih =>
    intro ls ls2 h t ht
    rw [pt_rules_loop] at h
    by_cases hm : name ∈ r.targets
    · rw [if_pos hm] at h
      cases hd : r.data with
      | Var a op b =>
        simp only [hd] at h
        have hA : allPrereqWords (r :: rest) = allPrereqWords rest := by
          simp [allPrereqWords, hd]
        rcases ih _ _ h t ht with h1 | h1
        · exact Or.inl h1
        · rw [hA]
          exact Or.inr h1
      | Prereq dc txt =>
        have hA : allPrereqWords (r :: rest)
            = splitWhitespace txt ++ allPrereqWords rest := by
          simp [allPrereqWords, hd]
        rw [hA]
        cases dc with
        | false =>
          simp only [hd] at h
          split at h
          · simp at h
          · split at h
            · simp at h
            · rcases ih _ _ h t ht with h1 | h1
              · simp at h1
                rcases h1 with h2 | h2
                · exact Or.inl h2
                · right
                  simp [h2]
              · right
                simp [h1]
        | true =>
          simp only [hd] at h
          split at h
          · simp at h
          · split at h
            · simp at h
            · rcases ih _ _ h t ht with h1 | h1
              · simp at h1
                rcases h1 with h2 | h2
                · exact Or.inl h2
                · right
                  simp [h2]
              · right
                simp [h1]
      | Recipie rc =>
        simp only [hd] at h
        have hA : allPrereqWords (r :: rest) = allPrereqWords rest := by
          simp [allPrereqWords, hd]
        rw [hA]
        split at h
        · split at h
          · simp at h
          · split at h
            · rcases ih _ _ h t ht with h1 | h1
              · exact Or.inl h1
              · exact Or.inr h1
            · rcases ih _ _ h t ht with h1 | h1
              · exact Or.inl h1
              · exact Or.inr h1
        · rcases ih _ _ h t ht with h1 | h1
          · exact Or.inl h1
          · exact Or.inr h1
    · rw [if_neg hm] at h
      have hA : t ∈ allPrereqWords rest → t ∈ allPrereqWords (r :: rest) := by
        intro h1
        simp [allPrereqWords, h1]
      rcases ih _ _ h t ht with h1 | h1
      · exact Or.inl h1
      · exact Or.inr (hA h1)

/-- The tail of `process_target` never reports exhausted scheduler fuel
and never changes the state it is given. -/
theorem pt_finish_spec (ctx : Ctx) (ef : Nat) (st : State) (vars : Vars) (name : String)
    (ls : PTLoop) (done : Bool) (cmds : List String) :
    pt_finish ctx ef st vars name ls done cmds ≠ .fuelOut
    ∧ ∀ res st2 c, pt_finish ctx ef st vars name ls done cmds = .ok res st2 c →
        st2 = st := by
  simp only [pt_finish]
  constructor
  · split
    · simp
    · split
      · split
        · exact (PTErr.toPTOut_spec _).1
        · split
          · exact (PTErr.toPTOut_spec _).1
          · simp
      · simp
  · intro res st2 c h
    split at h
    · injection h with h1 h2 h3
      exact h2.symm
    · split at h
      · split at h
        · exact absurd h ((PTErr.toPTOut_spec _).2 _ _ _)
        · split at h
          · exact absurd h ((PTErr.toPTOut_spec _).2 _ _ _)
          · injection h with h1 h2 h3
            exact h2.symm
      · injection h with h1 h2 h3
        exact h2.symm

/-- The error/success dispatcher after the prerequisite loop preserves
what the loop established. -/
theorem pt_after_spec (ctx : Ctx) (ef : Nat) (names : List String) (st0 : State)
    (vars : Vars) (name : String) (ls : PTLoop) (pp : PTPrereqOut)
    (hpp1 : ∀ e, pp = .err e → e ≠ PTOut.fuelOut ∧ ∀ r s c, e ≠ PTOut.ok r s c)
    (hpp2 : ∀ st2 d c, pp = .ok st2 d c → pt_inv names st0 st2) :
    pt_after ctx ef vars name ls pp ≠ .fuelOut
    ∧ ∀ res st2 c, pt_after ctx ef vars name ls pp = .ok res st2 c →
        pt_inv names st0 st2 := by
  cases pp with
  | err e =>
    refine ⟨(hpp1 e rfl).1, ?_⟩
    intro res st2 c h
    exact absurd h ((hpp1 e rfl).2 res st2 c)
  | ok st1 d c =>
    have hinv := hpp2 st1 d c rfl
    have hfs := pt_finish_spec ctx ef st1 vars name ls d c
    refine ⟨hfs.1, ?_⟩
    intro res st2 c2 h
    have h2 := hfs.2 res st2 c2 h
    subst h2
    exact hinv

/-- The prerequisite loop under an adequate-fuel induction hypothesis:
it never reports exhausted scheduler fuel and its successful outcome
respects the state invariant. -/
theorem pt_prereqs_aux (ctx : Ctx) (ef : Nat) (names : List String) (f : Nat)
    (IH : ∀ (st : State) (vars : Vars) (name : String),
      name ∈ names →
      (∀ w ∈ allPrereqWords st.rules, w ∈ names) →
      unprocessedCard names st.processed < f →
      process_target ctx ef f st vars name ≠ .fuelOut
      ∧ ∀ res st2 cmds, process_target ctx ef f st vars name = .ok res st2 cmds →
          pt_inv names st st2)
    (phony : List String) (basename parent : String) :
    ∀ (ts : List String) (st : State) (vars : Vars) (done : Bool) (cmds : List String),
      (∀ t ∈ ts, t ∈ names) →
      (∀ w ∈ allPrereqWords st.rules, w ∈ names) →
      unprocessedCard names st.processed < f →
      (∀ e, pt_prereqs (process_target ctx ef f) phony basename parent st vars done cmds ts
          = .err e → e ≠ PTOut.fuelOut ∧ ∀ r s c, e ≠ PTOut.ok r s c)
      ∧ (∀ st2 done2 cmds2,
          pt_prereqs (process_target ctx ef f) phony basename parent st vars done cmds ts
            = .ok st2 done2 cmds2 → pt_inv names st st2) := by
  intro ts
  induction ts with
  | nil =>
    intro st vars done cmds _ _ _
    constructor
    · intro e he
      rw [pt_prereqs] at he
      exact absurd he (by simp)
    · intro st2 done2 cmds2 h
      rw [pt_prereqs] at h
      injection h with h1 h2 h3
      subst h1
      exact pt_inv_refl names st
  | cons t ts ihts =>
    intro st vars done cmds hts hw hcard
    have hchild := IH st vars t (hts t (by simp)) hw hcard
    cases hc : process_target ctx ef f st vars t with
    | ok res st1 cmds1 =>
      have hinv := hchild.2 res st1 cmds1 hc
      have hw1 : ∀ w ∈ allPrereqWords st1.rules, w ∈ names := by
        rw [hinv.1]
        exact hw
      have hcard1 : unprocessedCard names st1.processed < f :=
        lt_of_le_of_lt (unprocessedCard_mono names hinv.2.2.2.1) hcard
      have hts1 : ∀ x ∈ ts, x ∈ names := fun x hx => hts x (by simp [hx])
      cases res with
      | some p =>
        have hstep : pt_prereqs (process_target ctx ef f) phony basename parent
              st vars done cmds (t :: ts)
            = pt_prereqs (process_target ctx ef f) phony basename parent
              st1 vars (done ∨ p.1) (cmds ++ cmds1) ts := by
          rw [pt_prereqs, hc]
        have hrec := ihts st1 vars (done ∨ p.1) (cmds ++ cmds1) hts1 hw1 hcard1
        constructor
        · intro e he
          rw [hstep] at he
          exact hrec.1 e he
        · intro st2 done2 cmds2 h
          rw [hstep] at h
          exact pt_inv_trans hinv (hrec.2 st2 done2 cmds2 h)
      | none =>
        by_cases hph : rustTrim t ∈ phony
        · have hstep : pt_prereqs (process_target ctx ef f) phony basename parent
                st vars done cmds (t :: ts)
              = pt_prereqs (process_target ctx ef f) phony basename parent
                st1 vars done (cmds ++ cmds1) ts := by
            rw [pt_prereqs, hc]
            simp [hph]
          have hrec := ihts st1 vars done (cmds ++ cmds1) hts1 hw1 hcard1
          constructor
          · intro e he
            rw [hstep] at he
            exact hrec.1 e he
          · intro st2 done2 cmds2 h
            rw [hstep] at h
            exact pt_inv_trans hinv (hrec.2 st2 done2 cmds2 h)
        · have hstep : pt_prereqs (process_target ctx ef f) phony basename parent
                st vars done cmds (t :: ts)
              = .err (.fatalExit 130 (basename ++ ": *** No rule to make target '" ++ t
                  ++ "', needed by '" ++ parent ++ "'. Stop")) := by
            rw [pt_prereqs, hc]
            simp [hph]
          constructor
          · intro e he
            rw [hstep] at he
            injection he with he
            subst he
            exact ⟨by simp, fun r s c => by simp⟩
          · intro st2 done2 cmds2 h
            rw [hstep] at h
            exact absurd h (by simp)
    | fatalExit c m =>
      have hstep : pt_prereqs (process_target ctx ef f) phony basename parent
            st vars done cmds (t :: ts) = .err (.fatalExit c m) := by
        rw [pt_prereqs, hc]
      constructor
      · intro e he
        rw [hstep] at he
        injection he with he
        subst he
        exact ⟨by simp, fun r s c => by simp⟩
      · intro st2 done2 cmds2 h
        rw [hstep] at h
        exact absurd h (by simp)
    | panicked =>
      have hstep : pt_prereqs (process_target ctx ef f) phony basename parent
            st vars done cmds (t :: ts) = .err .panicked := by
        rw [pt_prereqs, hc]
      constructor
      · intro e he
        rw [hstep] at he
        injection he with he
        subst he
        exact ⟨by simp, fun r s c => by simp⟩
      · intro st2 done2 cmds2 h
        rw [hstep] at h
        exact absurd h (by simp)
    | expFuelOut =>
      have hstep : pt_prereqs (process_target ctx ef f) phony basename parent
            st vars done cmds (t :: ts) = .err .expFuelOut := by
        rw [pt_prereqs, hc]
      constructor
      · intro e he
        rw [hstep] at he
        injection he with he
        subst he
        exact ⟨by simp, fun r s c => by simp⟩
      · intro st2 done2 cmds2 h
        rw [hstep] at h
        exact absurd h (by simp)
    | fuelOut => exact absurd hc hchild.1

/-- Fuel adequacy: with more fuel than there are never-yet-processed
candidate names, `process_target` cannot run out of scheduler fuel, and
a successful run respects the state invariant. -/
theorem pt_fuel_aux (ctx : Ctx) (ef : Nat) (names : List String) :
    ∀ (f : Nat) (st : State) (vars : Vars) (name : String),
      name ∈ names →
      (∀ w ∈ allPrereqWords st.rules, w ∈ names) →
      unprocessedCard names st.processed < f →
      process_target ctx ef f st vars name ≠ .fuelOut
      ∧ ∀ res st2 cmds, process_target ctx ef f st vars name = .ok res st2 cmds →
          pt_inv names st st2 := by
  intro f
  induction f with
  | zero =>
    intro st vars name _ _ hlt
    exact absurd hlt (by omega)
  | succ f ihf =>
    intro st vars name hmem hw hlt
    by_cases hproc : name ∈ st.processed
    · have heq := process_target_memo ctx ef f st vars hproc
      rw [heq]
      constructor
      · simp
      · intro res st2 cmds h
        injection h with h1 h2 h3
        subst h2
        exact pt_inv_refl names st
    · cases hRL : pt_rules_loop name PTLoop.init st.rules with
      | fatal c m =>
        have heq : process_target ctx ef (f + 1) st vars name = .fatalExit c m := by
          rw [process_target, if_neg hproc]
          simp only [hRL]
        rw [heq]
        exact ⟨by simp, fun res st2 cmds h => absurd h (by simp)⟩
      | panicked =>
        have heq : process_target ctx ef (f + 1) st vars name = .panicked := by
          rw [process_target, if_neg hproc]
          simp only [hRL]
        rw [heq]
        exact ⟨by simp, fun res st2 cmds h => absurd h (by simp)⟩
      | ok ls =>
        have hts : ∀ t ∈ ls.prerequisites, t ∈ names := by
          intro t ht
          rcases pt_rules_loop_prereqs name st.rules PTLoop.init ls hRL t ht with h1 | h1
          · exact absurd h1 (by simp [PTLoop.init])
          · exact hw t h1
        have hpush : pt_inv names st { st with processed := st.processed ++ [name] } :=
          pt_inv_push st hmem
        have hwP : ∀ w ∈ allPrereqWords
            ({ st with processed := st.processed ++ [name] } : State).rules,
            w ∈ names := hw
        have hcardP : unprocessedCard names
            ({ st with processed := st.processed ++ [name] } : State).processed < f := by
          show unprocessedCard names (st.processed ++ [name]) < f
          have h1 := unprocessedCard_push names hmem hproc
          omega
        rw [process_target, if_neg hproc]
        simp only [hRL]
        refine pt_after_spec ctx ef names st _ name ls _ ?_ ?_
        · intro e he
          exact (pt_prereqs_aux ctx ef names f ihf _ _ name ls.prerequisites _ _
            false [] hts hwP hcardP).1 e he
        · intro st2 d c hok
          exact pt_inv_trans hpush ((pt_prereqs_aux ctx ef names f ihf _ _ name
            ls.prerequisites _ _ false [] hts hwP hcardP).2 st2 d c hok)

/-- Claim C10: `process_target` handles each name at most once per run —
a call whose name is already in the processed list returns at once with
`Ok(Some((false, false)))`, an unchanged state and no commands
(src/main.rs 1090-1094) — and the depth-first recursion terminates on
every finite rule list, cyclic prerequisite graphs included: any fuel
beyond the (finite) count of the requested name plus all prerequisite
words occurring in the rules is never exhausted. -/
theorem claim_c10 (ctx : Ctx) (ef : Nat) (st : State) (vars : Vars) (name : String) :
    (∀ f, name ∈ st.processed →
        process_target ctx ef (f + 1) st vars name = .ok (some (false, false)) st [])
    ∧ ∀ f, (name :: allPrereqWords st.rules).length < f →
        process_target ctx ef f st vars name ≠ .fuelOut := by
  constructor
  · intro f h
    exact process_target_memo ctx ef f st vars h
  · intro f hf
    refine (pt_fuel_aux ctx ef (name :: allPrereqWords st.rules) f st vars name
      (by simp) (fun w hw => by simp [hw]) ?_).1
    calc unprocessedCard (name :: allPrereqWords st.rules) st.processed
        ≤ (name :: allPrereqWords st.rules).length := unprocessedCard_le_length _ _
      _ < f := hf

/-- The memo-hit scenario: `a` is already processed. -/
def stC10a : State := { State.default with processed := ["a"] }

/-- The cyclic scenario: `t` needs `u` and `u` needs `t`. -/
def stC10b : State :=
  { State.default with rules :=
      [⟨⟨"Makefile", 1⟩, ["t"], .Prereq false "u"⟩,
       ⟨⟨"Makefile", 2⟩, ["u"], .Prereq false "t"⟩] }

/-- Claim C10 witness: the memo return at the already-processed `a`,
and fuel adequacy on the two-target prerequisite cycle. -/
theorem claim_c10_witness :
    process_target ctx0 2 4 stC10a [] "a" = .ok (some (false, false)) stC10a []
    ∧ process_target ctx0 2 4 stC10b [] "t" ≠ .fuelOut :=
  ⟨(claim_c10 ctx0 2 stC10a [] "a").1 3 (by decide),
   (claim_c10 ctx0 2 stC10b [] "t").2 4 (by decide)⟩

end Imake
